import Mathlib

/-!
Verification of the polygon-merge algorithm in `src/utils/geometry.ts`.

The geometry library (`@turf/turf`) is an external collaborator; its
operations (point distance, centroid, buffering, union, bounding box) are
modelled as an abstract structure `GeoLib` of pure functions over rational
coordinates.  Every algorithmic definition below is a direct translation of
the corresponding TypeScript function, keeping the source's names.
-/

/-- A GeoJSON position: a planar coordinate pair (floats modelled as `ℚ`). -/
abbrev Pos := ℚ × ℚ

/-- A Polygon (a list of rings) or MultiPolygon (a list of ring groups),
each ring an ordered list of coordinate pairs. -/
inductive Geometry where
  | polygon (rings : List (List Pos)) : Geometry
  | multiPolygon (polys : List (List (List Pos))) : Geometry
deriving DecidableEq

instance : Inhabited Geometry := ⟨Geometry.polygon []⟩

/-- The external geometry capability (turf): point distance, centroid,
buffering of a segment into a polygon, union of shapes, bounding box. -/
structure GeoLib where
  dist : Pos → Pos → ℚ
  centroid : Geometry → Pos
  buffer : List Pos → ℚ → Geometry
  gunion : Geometry → Geometry → Geometry
  bbox : List Geometry → ℚ × ℚ × ℚ × ℚ

/-- `turf.clone`: a deep copy, which on pure values is the identity. -/
def tclone (g : Geometry) : Geometry := g

/-- `turf.length` of a line string: the sum of the distances between
consecutive coordinates. -/
def pathLength (G : GeoLib) : List Pos → ℚ
  | [] => 0
  | [_] => 0
  | a :: b :: rest => G.dist a b + pathLength G (b :: rest)

/-- The values taken by the loop counter `for (let s = 1; s < q; s++)`:
all naturals `s` with `1 ≤ s` and `(s : ℚ) < q`, in increasing order
(`s < ⌈q⌉₊ ↔ (s : ℚ) < q` by `Nat.lt_ceil`). -/
def sRange (q : ℚ) : List ℕ := (List.range ⌈q⌉₊).filter (fun s => 1 ≤ s)

/-- `samplePerimeterPoints` from `src/utils/geometry.ts`: for each ring
group, emit every vertex of the outer (first) ring and then, for each
consecutive vertex pair, interior points uniformly subdividing the edge. -/
def samplePerimeterPoints (p : Geometry) (targetPerRing : ℕ) : List Pos :=
  let polys := match p with
    | .polygon cs => [cs]
    | .multiPolygon cs => cs
  polys.flatMap (fun poly =>
    match poly with
    | [] => []
    | ring :: _ =>
      ring ++ (List.range (ring.length - 1)).flatMap (fun i =>
        let a := ring.getD i (0, 0)
        let b := ring.getD (i + 1) (0, 0)
        let q : ℚ := (targetPerRing : ℚ) / ((ring.length : ℚ) - 1)
        (sRange q).map (fun (s : ℕ) =>
          let t : ℚ := (s : ℚ) / ((⌈q⌉₊ : ℕ) : ℚ)
          (a.1 + (b.1 - a.1) * t, a.2 + (b.2 - a.2) * t))))

/-- The all-pairs minimum scan of `shortestSegmentBetween`: a left fold over
the two sample lists keeping the first strictly smaller distance. -/
def bestPair (G : GeoLib) (samplesA samplesB : List Pos) : Option (Pos × Pos × ℚ) :=
  samplesA.foldl (fun best pa =>
    samplesB.foldl (fun best pb =>
      let d := G.dist pa pb
      match best with
      | none => some (pa, pb, d)
      | some b => if d < b.2.2 then some (pa, pb, d) else best) best) none

/-- `shortestSegmentBetween` from `src/utils/geometry.ts`. -/
def shortestSegmentBetween (G : GeoLib) (a b : Geometry) : List Pos :=
  let samplesA := samplePerimeterPoints a 24
  let samplesB := samplePerimeterPoints b 24
  match bestPair G samplesA samplesB with
  | none => [G.centroid a, G.centroid b]
  | some best => [best.1, best.2.1]

/-- `bboxDiagonalKm` from `src/utils/geometry.ts`: distance between the two
bounding-box corners (the model's `dist` is total, so the catch branch
returning 1 is unreachable). -/
def bboxDiagonalKm (G : GeoLib) (bbox : ℚ × ℚ × ℚ × ℚ) : ℚ :=
  G.dist (bbox.1, bbox.2.1) (bbox.2.2.1, bbox.2.2.2)

/-- The corridor half-width `(diagKm || 1) * 0.02 * (options?.corridorFactor ?? 1)`
(`diagKm || 1` substitutes 1 when the diagonal is zero). -/
def corridorWidthKm (diagKm : ℚ) (corridorFactor : Option ℚ) : ℚ :=
  (if diagKm = 0 then 1 else diagKm) * (2 / 100) * corridorFactor.getD 1

/-- A pairwise connection edge: `{ a; b; distance; seg }`. -/
structure Edge where
  a : ℕ
  b : ℕ
  distance : ℚ
  seg : List Pos
deriving DecidableEq

/-- An accepted MST edge: `{ a; b; seg }`. -/
structure MstEdge where
  a : ℕ
  b : ℕ
  seg : List Pos
deriving DecidableEq

/-- The record pushed onto `mstEdges` for an accepted edge. -/
def toMst (e : Edge) : MstEdge := ⟨e.a, e.b, e.seg⟩

/-- The debug record returned by the merge operation. -/
structure MergeDebug where
  pairs : List Edge
  mstEdges : List MstEdge
  corridorPolygons : List Geometry
deriving DecidableEq

/-- The complete-graph construction: for every `i < j < n` an edge with the
shortest connecting segment and its length as distance. -/
def buildEdges (G : GeoLib) (polys : List Geometry) : List Edge :=
  (List.range polys.length).flatMap (fun i =>
    (List.range' (i + 1) (polys.length - (i + 1))).map (fun j =>
      let seg := shortestSegmentBetween G (polys.getD i default) (polys.getD j default)
      { a := i, b := j, distance := pathLength G seg, seg := seg }))

/-- `edges.sort((x, y) => x.distance - y.distance)`. -/
def sortEdges (edges : List Edge) : List Edge :=
  edges.mergeSort (fun x y => x.distance ≤ y.distance)

/-- The `UnionFind` class of `src/utils/geometry.ts`: two parallel arrays,
`parent` and `rank`. -/
structure UnionFind where
  parent : List ℕ
  rank : List ℕ
deriving DecidableEq

namespace UnionFind

/-- The constructor: `parent[i] = i`, `rank[i] = 0`. -/
def init (n : ℕ) : UnionFind := ⟨List.range n, List.replicate n 0⟩

/-- `this.parent[x]` (out-of-range reads, never performed by the algorithm,
default to `x`). -/
def parentOf (uf : UnionFind) (x : ℕ) : ℕ := uf.parent.getD x x

/-- `this.rank[x]`. -/
def rankOf (uf : UnionFind) (x : ℕ) : ℕ := uf.rank.getD x 0

/-- `find` with path compression.  The recursion
`if (parent[x] !== x) parent[x] = find(parent[x]); return parent[x];`
is modelled with explicit fuel; `find` supplies fuel `parent.length`,
which always suffices for well-formed states (see `findAux_spec`). -/
def findAux : ℕ → UnionFind → ℕ → UnionFind × ℕ
  | 0, uf, x => (uf, x)
  | fuel + 1, uf, x =>
    let p := uf.parentOf x
    if p = x then (uf, x)
    else
      let r := findAux fuel uf p
      (⟨r.1.parent.set x r.2, r.1.rank⟩, r.2)

/-- `find(x)`. -/
def find (uf : UnionFind) (x : ℕ) : UnionFind × ℕ := findAux uf.parent.length uf x

/-- `union(a, b)` with union by rank (the source's `find` calls mutate the
structure before the roots are compared). -/
def union (uf : UnionFind) (a b : ℕ) : UnionFind :=
  let fa := uf.find a
  let fb := fa.1.find b
  let ra := fa.2
  let rb := fb.2
  let uf2 := fb.1
  if ra = rb then uf2
  else if uf2.rankOf ra < uf2.rankOf rb then
    ⟨uf2.parent.set ra rb, uf2.rank⟩
  else if uf2.rankOf rb < uf2.rankOf ra then
    ⟨uf2.parent.set rb ra, uf2.rank⟩
  else
    ⟨uf2.parent.set rb ra, uf2.rank.set ra (uf2.rankOf ra + 1)⟩

end UnionFind

/-- Iterate a parent map until a fixed point, with fuel: the chain
`x, p x, p (p x), …` stopped at the first root. -/
def iterRoot (p : ℕ → ℕ) : ℕ → ℕ → ℕ
  | 0, x => x
  | fuel + 1, x => if p x = x then x else iterRoot p fuel (p x)

/-- The representative of `x`: the root reached by following parent links
without compression (specification-level view of the structure). -/
def UnionFind.rootOf (uf : UnionFind) (x : ℕ) : ℕ :=
  iterRoot uf.parentOf uf.parent.length x

/-- The Kruskal scan of `mergePolygonsWithShortestCorridors`: for each edge
in ascending order, if the endpoint roots differ, union them and accept the
edge; stop as soon as `n - 1` edges are accepted. -/
def kruskalLoop (n : ℕ) : List Edge → UnionFind → List MstEdge → UnionFind × List MstEdge
  | [], uf, acc => (uf, acc)
  | e :: rest, uf, acc =>
    let fa := uf.find e.a
    let fb := fa.1.find e.b
    if fa.2 ≠ fb.2 then
      let uf2 := fb.1.union e.a e.b
      let acc2 := acc ++ [toMst e]
      if acc2.length = n - 1 then (uf2, acc2)
      else kruskalLoop n rest uf2 acc2
    else kruskalLoop n rest fb.1 acc

/-- The iterative union of all pieces: an `Option`-accumulator left fold
(`accumulated = accumulated ? turf.union(accumulated, piece) : piece`). -/
def mergePieces (G : GeoLib) (pieces : List Geometry) : Option Geometry :=
  pieces.foldl (fun acc piece =>
    match acc with
    | none => some piece
    | some s => some (G.gunion s piece)) none

/-- `mergePolygonsWithShortestCorridors` from `src/utils/geometry.ts`. -/
def mergePolygonsWithShortestCorridors (G : GeoLib) (features : List Geometry)
    (corridorFactor : Option ℚ) : Except String (Geometry × MergeDebug) :=
  let polys := features.map tclone
  let n := polys.length
  if n = 1 then
    Except.ok (polys.getD 0 default, ⟨[], [], []⟩)
  else
    let diagKm := bboxDiagonalKm G (G.bbox polys)
    let widthKm := corridorWidthKm diagKm corridorFactor
    let sorted := sortEdges (buildEdges G polys)
    let st := kruskalLoop n sorted (UnionFind.init n) []
    let mst := st.2
    let corridorPolygons := mst.map (fun e => G.buffer e.seg widthKm)
    let allPieces := polys ++ corridorPolygons
    match mergePieces G allPieces with
    | none => Except.error "Union failed"
    | some out => Except.ok (out, ⟨sorted, mst, corridorPolygons⟩)

/-! ### Specification-level notions -/

/-- The index pairs of a list of connection edges. -/
def pairsE (l : List Edge) : List (ℕ × ℕ) := l.map (fun e => (e.a, e.b))

/-- The index pairs of a list of accepted MST edges. -/
def pairsM (l : List MstEdge) : List (ℕ × ℕ) := l.map (fun m => (m.a, m.b))

/-- Connectivity, directly or transitively, by a list of undirected edges. -/
inductive Conn (E : List (ℕ × ℕ)) : ℕ → ℕ → Prop where
  | rel {x y : ℕ} : (x, y) ∈ E → Conn E x y
  | refl (x : ℕ) : Conn E x x
  | symm {x y : ℕ} : Conn E x y → Conn E y x
  | trans {x y z : ℕ} : Conn E x y → Conn E y z → Conn E x z

/-- Well-formedness of a union-find parent map over `0..n-1`: parents stay
in range, out-of-range entries are fixed points, and the rank strictly
increases along non-trivial parent links (the union-by-rank invariant that
makes every parent chain terminate). -/
structure ParentMap (p rk : ℕ → ℕ) (n : ℕ) : Prop where
  mem : ∀ x, x < n → p x < n
  out : ∀ x, n ≤ x → p x = x
  inc : ∀ x, x < n → p x ≠ x → rk x < rk (p x)

namespace ParentMap

variable {p rk : ℕ → ℕ} {n : ℕ}

theorem iterate_mem (hp : ParentMap p rk n) {x : ℕ} (hx : x < n) :
    ∀ k, p^[k] x < n := by
  intro k
  induction k with
  | zero => simpa using hx
  | succ m ih => rw [Function.iterate_succ_apply']; exact hp.mem _ ih

theorem iterate_out (hp : ParentMap p rk n) {x : ℕ} (hx : n ≤ x) :
    ∀ k, p^[k] x = x := by
  intro k
  induction k with
  | zero => simp
  | succ m ih => rw [Function.iterate_succ_apply', ih]; exact hp.out _ hx

theorem root_exists (hp : ParentMap p rk n) (x : ℕ) :
    ∃ k, p (p^[k] x) = p^[k] x := by
  by_cases hx : x < n
  · by_contra hcon
    push_neg at hcon
    have hmono : StrictMono (fun k => rk (p^[k] x)) := by
      apply strictMono_nat_of_lt_succ
      intro k
      have h1 : p^[k + 1] x = p (p^[k] x) := Function.iterate_succ_apply' p k x
      rw [h1]
      exact hp.inc _ (hp.iterate_mem hx k) (hcon k)
    have hinj : Function.Injective (fun k : Fin (n + 1) => (⟨p^[(k : ℕ)] x, hp.iterate_mem hx _⟩ : Fin n)) := by
      intro i j hij
      have : rk (p^[(i : ℕ)] x) = rk (p^[(j : ℕ)] x) := by
        simpa using congrArg (fun z : Fin n => rk (z : ℕ)) hij
      exact Fin.ext (hmono.injective this)
    have := Fintype.card_le_of_injective _ hinj
    simp at this
  · exact ⟨0, by simpa using hp.out x (Nat.le_of_not_lt hx)⟩

end ParentMap

/-- The first index at which the parent chain from `x` reaches a root. -/
def stepsTo (p : ℕ → ℕ) (x : ℕ) (h : ∃ k, p (p^[k] x) = p^[k] x) : ℕ :=
  Nat.find h

theorem stepsTo_spec (p : ℕ → ℕ) (x : ℕ) (h : ∃ k, p (p^[k] x) = p^[k] x) :
    p (p^[stepsTo p x h] x) = p^[stepsTo p x h] x :=
  Nat.find_spec h

theorem stepsTo_min (p : ℕ → ℕ) (x : ℕ) (h : ∃ k, p (p^[k] x) = p^[k] x)
    {m : ℕ} (hm : m < stepsTo p x h) : p (p^[m] x) ≠ p^[m] x :=
  Nat.find_min h hm

theorem stepsTo_eq_zero (p : ℕ → ℕ) (x : ℕ) (h : ∃ k, p (p^[k] x) = p^[k] x)
    (hx : p x = x) : stepsTo p x h = 0 := by
  simpa [stepsTo, Nat.find_eq_zero] using hx

theorem stepsTo_pos (p : ℕ → ℕ) (x : ℕ) (h : ∃ k, p (p^[k] x) = p^[k] x)
    (hx : p x ≠ x) : 1 ≤ stepsTo p x h := by
  rcases Nat.eq_zero_or_pos (stepsTo p x h) with h0 | h1
  · exact absurd (by simpa [h0] using stepsTo_spec p x h) hx
  · exact h1

theorem stepsTo_parent (p : ℕ → ℕ) (x : ℕ) (h : ∃ k, p (p^[k] x) = p^[k] x)
    (h' : ∃ k, p (p^[k] (p x)) = p^[k] (p x)) (hx : p x ≠ x) :
    stepsTo p (p x) h' = stepsTo p x h - 1 := by
  have hshift : ∀ k, p^[k] (p x) = p^[k + 1] x := by
    intro k
    rw [Function.iterate_succ_apply]
  have hpos := stepsTo_pos p x h hx
  apply le_antisymm
  · have : p (p^[stepsTo p x h - 1] (p x)) = p^[stepsTo p x h - 1] (p x) := by
      rw [hshift, Nat.sub_add_cancel hpos]
      exact stepsTo_spec p x h
    exact Nat.find_le this
  · by_contra hlt
    push_neg at hlt
    have h2 : stepsTo p (p x) h' + 1 < stepsTo p x h := by omega
    have := stepsTo_min p x h h2
    rw [← hshift] at this
    exact this (stepsTo_spec p (p x) h')

theorem iterRoot_fix (p : ℕ → ℕ) {x : ℕ} (hx : p x = x) :
    ∀ fuel, iterRoot p fuel x = x := by
  intro fuel
  cases fuel with
  | zero => rfl
  | succ m => simp [iterRoot, hx]

theorem iterRoot_eq_iterate (p : ℕ → ℕ) :
    ∀ fuel x (h : ∃ k, p (p^[k] x) = p^[k] x), stepsTo p x h ≤ fuel →
      iterRoot p fuel x = p^[stepsTo p x h] x := by
  intro fuel
  induction fuel with
  | zero =>
    intro x h hle
    have h0 : stepsTo p x h = 0 := Nat.le_zero.mp hle
    simp [iterRoot, h0]
  | succ m ih =>
    intro x h hle
    by_cases hx : p x = x
    · rw [iterRoot_fix p hx, stepsTo_eq_zero p x h hx]
      simp
    · have hpos := stepsTo_pos p x h hx
      have hshift : p^[stepsTo p x h - 1] (p x) = p^[stepsTo p x h] x := by
        have h2 := Function.iterate_succ_apply p (stepsTo p x h - 1) x
        rw [Nat.succ_eq_add_one, Nat.sub_add_cancel hpos] at h2
        exact h2.symm
      have h' : ∃ k, p (p^[k] (p x)) = p^[k] (p x) := by
        refine ⟨stepsTo p x h - 1, ?_⟩
        rw [hshift]
        exact stepsTo_spec p x h
      have hstep : stepsTo p (p x) h' = stepsTo p x h - 1 := stepsTo_parent p x h h' hx
      calc iterRoot p (m + 1) x = iterRoot p m (p x) := by simp [iterRoot, hx]
        _ = p^[stepsTo p (p x) h'] (p x) := ih (p x) h' (by omega)
        _ = p^[stepsTo p x h - 1] (p x) := by rw [hstep]
        _ = p^[stepsTo p x h] x := hshift

namespace ParentMap

variable {p rk : ℕ → ℕ} {n : ℕ}

/-- For in-range `x` the chain reaches a root strictly within `n` steps:
the visited nodes are pairwise distinct (their ranks strictly increase). -/
theorem stepsTo_lt (hp : ParentMap p rk n) {x : ℕ} (hx : x < n) :
    stepsTo p x (hp.root_exists x) < n := by
  set h := hp.root_exists x
  by_contra hge
  push_neg at hge
  have hlt : ∀ k, k < n → p (p^[k] x) ≠ p^[k] x := fun k hk =>
    stepsTo_min p x h (lt_of_lt_of_le hk hge)
  have hmono : ∀ k, k < n → rk (p^[k] x) < rk (p^[k + 1] x) := by
    intro k hk
    rw [Function.iterate_succ_apply']
    exact hp.inc _ (hp.iterate_mem hx k) (hlt k hk)
  have hmono2 : ∀ i j, i < j → j ≤ n → rk (p^[i] x) < rk (p^[j] x) := by
    intro i j hij hjn
    induction j with
    | zero => omega
    | succ m ihm =>
      rcases Nat.lt_succ_iff_lt_or_eq.mp hij with hlt2 | heq
      · exact lt_trans (ihm hlt2 (by omega)) (hmono m (by omega))
      · subst heq; exact hmono i (by omega)
  have hinj : Function.Injective
      (fun k : Fin (n + 1) => (⟨p^[(k : ℕ)] x, hp.iterate_mem hx _⟩ : Fin n)) := by
    intro i j hij
    have hv : p^[(i : ℕ)] x = p^[(j : ℕ)] x := by
      simpa using congrArg (fun z : Fin n => (z : ℕ)) hij
    by_contra hne
    rcases Nat.lt_or_ge (i : ℕ) (j : ℕ) with hlt2 | hge2
    · have hc := hmono2 _ _ hlt2 (Nat.lt_succ_iff.mp j.isLt)
      rw [hv] at hc
      exact lt_irrefl _ hc
    · have hlt3 : (j : ℕ) < (i : ℕ) := by
        rcases Nat.lt_or_ge (j : ℕ) (i : ℕ) with h3 | h3
        · exact h3
        · exact absurd (Fin.ext (le_antisymm h3 hge2)) hne
      have hc := hmono2 _ _ hlt3 (Nat.lt_succ_iff.mp i.isLt)
      rw [← hv] at hc
      exact lt_irrefl _ hc
  have hcard := Fintype.card_le_of_injective _ hinj
  simp at hcard

theorem stepsTo_le (hp : ParentMap p rk n) (x : ℕ) :
    stepsTo p x (hp.root_exists x) ≤ n := by
  by_cases hx : x < n
  · exact le_of_lt (hp.stepsTo_lt hx)
  · have h0 : p x = x := hp.out x (Nat.le_of_not_lt hx)
    rw [stepsTo_eq_zero p x _ h0]
    exact Nat.zero_le n

theorem iterRoot_n (hp : ParentMap p rk n) (x : ℕ) :
    iterRoot p n x = p^[stepsTo p x (hp.root_exists x)] x :=
  iterRoot_eq_iterate p n x (hp.root_exists x) (hp.stepsTo_le x)

theorem root_isRoot (hp : ParentMap p rk n) (x : ℕ) :
    p (iterRoot p n x) = iterRoot p n x := by
  rw [hp.iterRoot_n x]
  exact stepsTo_spec p x (hp.root_exists x)

theorem root_eq_self (hp : ParentMap p rk n) {x : ℕ} (hx : p x = x) :
    iterRoot p n x = x :=
  iterRoot_fix p hx n

theorem root_mem (hp : ParentMap p rk n) {x : ℕ} (hx : x < n) :
    iterRoot p n x < n := by
  rw [hp.iterRoot_n x]
  exact hp.iterate_mem hx _

theorem root_out (hp : ParentMap p rk n) {x : ℕ} (hx : n ≤ x) :
    iterRoot p n x = x :=
  hp.root_eq_self (hp.out x hx)

theorem root_parent (hp : ParentMap p rk n) (x : ℕ) :
    iterRoot p n (p x) = iterRoot p n x := by
  by_cases hnr : p x = x
  · rw [hnr]
  · have hx : x < n := by
      by_contra hge
      exact hnr (hp.out x (Nat.le_of_not_lt hge))
    have hpos := stepsTo_pos p x (hp.root_exists x) hnr
    have hshift : p^[stepsTo p x (hp.root_exists x) - 1] (p x)
        = p^[stepsTo p x (hp.root_exists x)] x := by
      have h2 := Function.iterate_succ_apply p (stepsTo p x (hp.root_exists x) - 1) x
      rw [Nat.succ_eq_add_one, Nat.sub_add_cancel hpos] at h2
      exact h2.symm
    rw [hp.iterRoot_n (p x), hp.iterRoot_n x,
      stepsTo_parent p x (hp.root_exists x) (hp.root_exists (p x)) hnr, hshift]

theorem root_root (hp : ParentMap p rk n) (x : ℕ) :
    iterRoot p n (iterRoot p n x) = iterRoot p n x :=
  hp.root_eq_self (hp.root_isRoot x)

theorem rank_lt_root (hp : ParentMap p rk n) :
    ∀ x, x < n → p x ≠ x → rk x < rk (iterRoot p n x) := by
  have key : ∀ m x, stepsTo p x (hp.root_exists x) = m → x < n → p x ≠ x →
      rk x < rk (iterRoot p n x) := by
    intro m
    induction m using Nat.strong_induction_on with
    | _ m IH =>
      intro x hm hx hnr
      have h1 : rk x < rk (p x) := hp.inc x hx hnr
      by_cases hpr : p (p x) = p x
      · have hroot : iterRoot p n x = p x := by
          rw [← hp.root_parent x, hp.root_eq_self hpr]
        rw [hroot]
        exact h1
      · have hplt : p x < n := hp.mem x hx
        have hpos := stepsTo_pos p x (hp.root_exists x) hnr
        have hsteps : stepsTo p (p x) (hp.root_exists (p x)) = m - 1 := by
          rw [stepsTo_parent p x (hp.root_exists x) (hp.root_exists (p x)) hnr, hm]
        have h2 := IH (m - 1) (by omega) (p x) hsteps hplt hpr
        rw [hp.root_parent x] at h2
        exact lt_trans h1 h2
  intro x hx hnr
  exact key _ x rfl hx hnr

end ParentMap

/-! ### Union-find state invariant and operation specifications -/

/-- Well-formed union-find state over `n` elements. -/
def UFinv (n : ℕ) (uf : UnionFind) : Prop :=
  ParentMap uf.parentOf uf.rankOf n ∧ uf.parent.length = n ∧ uf.rank.length = n

theorem UnionFind.rootOf_def (uf : UnionFind) :
    uf.rootOf = iterRoot uf.parentOf uf.parent.length := rfl

theorem UnionFind.parentOf_set (parent rank : List ℕ) (x v : ℕ) (hx : x < parent.length) :
    (⟨parent.set x v, rank⟩ : UnionFind).parentOf =
      Function.update (⟨parent, rank⟩ : UnionFind).parentOf x v := by
  funext y
  by_cases hxy : y = x
  · subst hxy
    simp [UnionFind.parentOf, Function.update, List.getD_eq_getElem?_getD,
      List.getElem?_set_self hx]
  · simp [UnionFind.parentOf, Function.update, hxy, List.getD_eq_getElem?_getD,
      List.getElem?_set_ne (fun h => hxy h.symm)]

theorem ParentMap.update_to_root {p rk : ℕ → ℕ} {n : ℕ} (hp : ParentMap p rk n)
    {x r : ℕ} (hx : x < n) (hr : r = iterRoot p n x) :
    ParentMap (Function.update p x r) rk n ∧
    ∀ y, iterRoot (Function.update p x r) n y = iterRoot p n y := by
  by_cases hnr : p x = x
  · have hrx : r = p x := by rw [hr, hp.root_eq_self hnr, hnr]
    rw [hrx, Function.update_eq_self]
    exact ⟨hp, fun _ => rfl⟩
  · have hrroot : p r = r := by rw [hr]; exact hp.root_isRoot x
    have hrn : r < n := by rw [hr]; exact hp.root_mem hx
    have hrxne : r ≠ x := fun h => hnr (h ▸ hrroot)
    have hpm' : ParentMap (Function.update p x r) rk n := by
      constructor
      · intro y hy
        by_cases hyx : y = x
        · subst hyx; rw [Function.update_same]; exact hrn
        · rw [Function.update_noteq hyx]; exact hp.mem y hy
      · intro y hy
        have hyx : y ≠ x := by omega
        rw [Function.update_noteq hyx]; exact hp.out y hy
      · intro y hy hne
        by_cases hyx : y = x
        · subst hyx
          rw [Function.update_same]
          have := hp.rank_lt_root y hy hnr
          rwa [← hr] at this
        · rw [Function.update_noteq hyx] at hne ⊢
          exact hp.inc y hy hne
    refine ⟨hpm', ?_⟩
    have key : ∀ m y, stepsTo p y (hp.root_exists y) = m →
        iterRoot (Function.update p x r) n y = iterRoot p n y := by
      intro m
      induction m using Nat.strong_induction_on with
      | _ m IH =>
        intro y hm
        by_cases hpy : p y = y
        · have hyx : y ≠ x := fun h => hnr (h ▸ hpy)
          have hfix : Function.update p x r y = y := by
            rw [Function.update_noteq hyx]; exact hpy
          rw [hpm'.root_eq_self hfix, hp.root_eq_self hpy]
        · by_cases hyx : y = x
          · subst hyx
            calc iterRoot (Function.update p y r) n y
                = iterRoot (Function.update p y r) n (Function.update p y r y) :=
                  (hpm'.root_parent y).symm
              _ = iterRoot (Function.update p y r) n r := by rw [Function.update_same]
              _ = r := hpm'.root_eq_self (by rw [Function.update_noteq hrxne]; exact hrroot)
              _ = iterRoot p n y := hr
          · have hpos := stepsTo_pos p y (hp.root_exists y) hpy
            have hsteps : stepsTo p (p y) (hp.root_exists (p y)) = m - 1 := by
              rw [stepsTo_parent p y (hp.root_exists y) (hp.root_exists (p y)) hpy, hm]
            calc iterRoot (Function.update p x r) n y
                = iterRoot (Function.update p x r) n (Function.update p x r y) :=
                  (hpm'.root_parent y).symm
              _ = iterRoot (Function.update p x r) n (p y) := by
                  rw [Function.update_noteq hyx]
              _ = iterRoot p n (p y) := IH (m - 1) (by omega) (p y) hsteps
              _ = iterRoot p n y := hp.root_parent y
    exact fun y => key _ y rfl

theorem ParentMap.link_pm {p rk : ℕ → ℕ} {n : ℕ} (hp : ParentMap p rk n)
    (rk' : ℕ → ℕ) {L W : ℕ} (hLn : L < n) (hWn : W < n) (hLW : L ≠ W)
    (hrk1 : rk' L < rk' W)
    (hrk2 : ∀ y, y < n → p y ≠ y → rk' y < rk' (p y)) :
    ParentMap (Function.update p L W) rk' n := by
  constructor
  · intro y hy
    by_cases hyL : y = L
    · subst hyL; rw [Function.update_same]; exact hWn
    · rw [Function.update_noteq hyL]; exact hp.mem y hy
  · intro y hy
    have hyL : y ≠ L := by omega
    rw [Function.update_noteq hyL]; exact hp.out y hy
  · intro y hy hne
    by_cases hyL : y = L
    · subst hyL
      rw [Function.update_same]
      exact hrk1
    · rw [Function.update_noteq hyL] at hne ⊢
      exact hrk2 y hy hne

theorem ParentMap.link_root {p rk rk' : ℕ → ℕ} {n : ℕ} (hp : ParentMap p rk n)
    {L W : ℕ} (hL : p L = L) (hW : p W = W) (hLW : L ≠ W)
    (hpm' : ParentMap (Function.update p L W) rk' n) :
    ∀ y, iterRoot (Function.update p L W) n y =
      if iterRoot p n y = L then W else iterRoot p n y := by
  have hWL : W ≠ L := fun h => hLW h.symm
  have key : ∀ m y, stepsTo p y (hp.root_exists y) = m →
      iterRoot (Function.update p L W) n y =
        if iterRoot p n y = L then W else iterRoot p n y := by
    intro m
    induction m using Nat.strong_induction_on with
    | _ m IH =>
      intro y hm
      by_cases hpy : p y = y
      · by_cases hyL : y = L
        · subst hyL
          rw [hp.root_eq_self hpy, if_pos rfl]
          calc iterRoot (Function.update p y W) n y
              = iterRoot (Function.update p y W) n (Function.update p y W y) :=
                (hpm'.root_parent y).symm
            _ = iterRoot (Function.update p y W) n W := by rw [Function.update_same]
            _ = W := hpm'.root_eq_self (by rw [Function.update_noteq hWL]; exact hW)
        · rw [hp.root_eq_self hpy, if_neg hyL]
          exact hpm'.root_eq_self (by rw [Function.update_noteq hyL]; exact hpy)
      · have hyL : y ≠ L := fun h => hpy (h ▸ hL)
        have hpos := stepsTo_pos p y (hp.root_exists y) hpy
        have hsteps : stepsTo p (p y) (hp.root_exists (p y)) = m - 1 := by
          rw [stepsTo_parent p y (hp.root_exists y) (hp.root_exists (p y)) hpy, hm]
        calc iterRoot (Function.update p L W) n y
            = iterRoot (Function.update p L W) n (Function.update p L W y) :=
              (hpm'.root_parent y).symm
          _ = iterRoot (Function.update p L W) n (p y) := by rw [Function.update_noteq hyL]
          _ = if iterRoot p n (p y) = L then W else iterRoot p n (p y) :=
              IH (m - 1) (by omega) (p y) hsteps
          _ = if iterRoot p n y = L then W else iterRoot p n y := by rw [hp.root_parent y]
  exact fun y => key _ y rfl

theorem UnionFind.set_root_spec {n : ℕ} {uf : UnionFind} (hinv : UFinv n uf) {x r : ℕ}
    (hx : x < n) (hr : r = uf.rootOf x) :
    UFinv n ⟨uf.parent.set x r, uf.rank⟩ ∧
    ∀ y, (⟨uf.parent.set x r, uf.rank⟩ : UnionFind).rootOf y = uf.rootOf y := by
  obtain ⟨hpm, hpl, hrl⟩ := hinv
  have hroot_eq : uf.rootOf = iterRoot uf.parentOf n := by rw [uf.rootOf_def, hpl]
  have hx' : x < uf.parent.length := by omega
  have hbridge : (⟨uf.parent.set x r, uf.rank⟩ : UnionFind).parentOf =
      Function.update uf.parentOf x r := UnionFind.parentOf_set uf.parent uf.rank x r hx'
  have hrr : r = iterRoot uf.parentOf n x := by rw [hr, hroot_eq]
  obtain ⟨hpm', hroots⟩ := hpm.update_to_root hx hrr
  have hrank : (⟨uf.parent.set x r, uf.rank⟩ : UnionFind).rankOf = uf.rankOf := rfl
  have hlen : (⟨uf.parent.set x r, uf.rank⟩ : UnionFind).parent.length = n := by
    simpa using hpl
  refine ⟨⟨?_, hlen, hrl⟩, ?_⟩
  · rw [hbridge, hrank]
    exact hpm'
  · intro y
    rw [(⟨uf.parent.set x r, uf.rank⟩ : UnionFind).rootOf_def, hlen, hbridge, hroot_eq]
    exact hroots y

theorem UnionFind.findAux_spec {n : ℕ} (uf : UnionFind) (hinv : UFinv n uf) :
    ∀ fuel x, x < n →
      (∃ k, k ≤ fuel ∧ uf.parentOf (uf.parentOf^[k] x) = uf.parentOf^[k] x) →
      (UnionFind.findAux fuel uf x).2 = uf.rootOf x ∧
      UFinv n (UnionFind.findAux fuel uf x).1 ∧
      (UnionFind.findAux fuel uf x).1.rank = uf.rank ∧
      ∀ y, (UnionFind.findAux fuel uf x).1.rootOf y = uf.rootOf y := by
  obtain ⟨hpm, hpl, hrl⟩ := hinv
  have hroot_eq : uf.rootOf = iterRoot uf.parentOf n := by rw [uf.rootOf_def, hpl]
  intro fuel
  induction fuel with
  | zero =>
    intro x hx hex
    obtain ⟨k, hk, hroot⟩ := hex
    have hk0 : k = 0 := Nat.le_zero.mp hk
    subst hk0
    simp only [Function.iterate_zero, id] at hroot
    have : uf.rootOf x = x := by rw [hroot_eq]; exact hpm.root_eq_self hroot
    simp [UnionFind.findAux, this, hroot_eq]
    exact ⟨hpm, hpl, hrl⟩
  | succ fuel ih =>
    intro x hx hex
    by_cases hpx : uf.parentOf x = x
    · have hfix : UnionFind.findAux (fuel + 1) uf x = (uf, x) := by
        simp [UnionFind.findAux, hpx]
      rw [hfix]
      have : uf.rootOf x = x := by rw [hroot_eq]; exact hpm.root_eq_self hpx
      exact ⟨this.symm, ⟨hpm, hpl, hrl⟩, rfl, fun _ => rfl⟩
    · have hunfold : UnionFind.findAux (fuel + 1) uf x =
          (⟨(UnionFind.findAux fuel uf (uf.parentOf x)).1.parent.set x
              (UnionFind.findAux fuel uf (uf.parentOf x)).2,
            (UnionFind.findAux fuel uf (uf.parentOf x)).1.rank⟩,
           (UnionFind.findAux fuel uf (uf.parentOf x)).2) := by
        simp [UnionFind.findAux, hpx]
      obtain ⟨k, hk, hroot⟩ := hex
      have hkpos : k ≠ 0 := by
        intro h0
        subst h0
        simp only [Function.iterate_zero, id] at hroot
        exact hpx hroot
      have hex' : ∃ k, k ≤ fuel ∧
          uf.parentOf (uf.parentOf^[k] (uf.parentOf x)) = uf.parentOf^[k] (uf.parentOf x) := by
        refine ⟨k - 1, by omega, ?_⟩
        have hsh : uf.parentOf^[k - 1] (uf.parentOf x) = uf.parentOf^[k] x := by
          have h2 := Function.iterate_succ_apply uf.parentOf (k - 1) x
          rw [Nat.succ_eq_add_one, Nat.sub_add_cancel (by omega : 1 ≤ k)] at h2
          exact h2.symm
        rw [hsh]
        exact hroot
      have hpxn : uf.parentOf x < n := hpm.mem x hx
      obtain ⟨ihval, ihinv, ihrank, ihroots⟩ := ih (uf.parentOf x) hpxn hex'
      have hrpar : uf.rootOf (uf.parentOf x) = uf.rootOf x := by
        rw [hroot_eq]; exact hpm.root_parent x
      have hval : (UnionFind.findAux fuel uf (uf.parentOf x)).2 =
          (UnionFind.findAux fuel uf (uf.parentOf x)).1.rootOf x := by
        rw [ihval, hrpar, ihroots x]
      obtain ⟨hinv2, hroots2⟩ :=
        UnionFind.set_root_spec ihinv hx hval
      rw [hunfold]
      refine ⟨by simpa using (ihval.trans hrpar), hinv2, by simpa using ihrank, ?_⟩
      intro y
      simpa [ihroots y] using hroots2 y

theorem UnionFind.find_spec {n : ℕ} {uf : UnionFind} (hinv : UFinv n uf) {x : ℕ} (hx : x < n) :
    (uf.find x).2 = uf.rootOf x ∧ UFinv n (uf.find x).1 ∧ (uf.find x).1.rank = uf.rank ∧
    ∀ y, (uf.find x).1.rootOf y = uf.rootOf y := by
  obtain ⟨hpm, hpl, hrl⟩ := hinv
  have hex : ∃ k, k ≤ uf.parent.length ∧
      uf.parentOf (uf.parentOf^[k] x) = uf.parentOf^[k] x := by
    refine ⟨stepsTo uf.parentOf x (hpm.root_exists x), ?_, stepsTo_spec _ _ _⟩
    rw [hpl]
    exact hpm.stepsTo_le x
  exact UnionFind.findAux_spec uf ⟨hpm, hpl, hrl⟩ uf.parent.length x hx hex

theorem getD_set_self (l : List ℕ) (i v d : ℕ) (h : i < l.length) :
    (l.set i v).getD i d = v := by
  simp [List.getD_eq_getElem?_getD, List.getElem?_set_self h]

theorem getD_set_ne (l : List ℕ) {i j : ℕ} (v d : ℕ) (h : i ≠ j) :
    (l.set i v).getD j d = l.getD j d := by
  simp [List.getD_eq_getElem?_getD, List.getElem?_set_ne h]

/-- Linking a root `L` under a root `W` (any of the three rank cases of
`union`): the invariant is preserved and every representative that was `L`
becomes `W`, all others are unchanged. -/
theorem UnionFind.link_case {n : ℕ} {uf2 : UnionFind} (hinv2 : UFinv n uf2)
    {L W : ℕ} (hLroot : uf2.parentOf L = L) (hWroot : uf2.parentOf W = W)
    (hLn : L < n) (hWn : W < n) (hLW : L ≠ W) (rank' : List ℕ)
    (hrank'len : rank'.length = n)
    (hrk1 : rank'.getD L 0 < rank'.getD W 0)
    (hrk2 : ∀ y, y < n → uf2.parentOf y ≠ y →
            rank'.getD y 0 < rank'.getD (uf2.parentOf y) 0) :
    UFinv n ⟨uf2.parent.set L W, rank'⟩ ∧
    ∀ y, (⟨uf2.parent.set L W, rank'⟩ : UnionFind).rootOf y =
      if uf2.rootOf y = L then W else uf2.rootOf y := by
  obtain ⟨hpm2, hpl2, hrl2⟩ := hinv2
  have hLn' : L < uf2.parent.length := by omega
  have hbridge : (⟨uf2.parent.set L W, rank'⟩ : UnionFind).parentOf =
      Function.update uf2.parentOf L W :=
    UnionFind.parentOf_set uf2.parent rank' L W hLn'
  have hpm' : ParentMap (Function.update uf2.parentOf L W) (fun y => rank'.getD y 0) n :=
    hpm2.link_pm (fun y => rank'.getD y 0) hLn hWn hLW hrk1 hrk2
  have hlen : (⟨uf2.parent.set L W, rank'⟩ : UnionFind).parent.length = n := by
    simpa using hpl2
  constructor
  · refine ⟨?_, hlen, hrank'len⟩
    rw [hbridge]
    exact hpm'
  · intro y
    have hroots := hpm2.link_root hLroot hWroot hLW hpm' y
    rw [UnionFind.rootOf_def, hlen, hbridge, uf2.rootOf_def, hpl2]
    exact hroots

theorem UnionFind.union_spec {n : ℕ} {uf : UnionFind} (hinv : UFinv n uf) {a b : ℕ}
    (ha : a < n) (hb : b < n) :
    UFinv n (uf.union a b) ∧
    ∃ w, (w = uf.rootOf a ∨ w = uf.rootOf b) ∧
      ∀ y, (uf.union a b).rootOf y =
        if uf.rootOf y = uf.rootOf a ∨ uf.rootOf y = uf.rootOf b then w
        else uf.rootOf y := by
  obtain ⟨h1val, h1inv, h1rank, h1roots⟩ := UnionFind.find_spec hinv ha
  obtain ⟨h2val, h2inv, h2rank, h2roots⟩ := UnionFind.find_spec h1inv hb
  have huf2roots : ∀ y, ((uf.find a).1.find b).1.rootOf y = uf.rootOf y :=
    fun y => (h2roots y).trans (h1roots y)
  have hra_eq : (uf.find a).2 = uf.rootOf a := h1val
  have hrb_eq : ((uf.find a).1.find b).2 = uf.rootOf b := by
    rw [h2val, h1roots b]
  obtain ⟨hpm2, hpl2, hrl2⟩ := h2inv
  have hroot2_eq : ((uf.find a).1.find b).1.rootOf =
      iterRoot ((uf.find a).1.find b).1.parentOf n := by
    rw [UnionFind.rootOf_def, hpl2]
  have hran : uf.rootOf a < n := by
    obtain ⟨hpm, hpl, _⟩ := hinv
    rw [uf.rootOf_def, hpl]; exact hpm.root_mem ha
  have hrbn : uf.rootOf b < n := by
    obtain ⟨hpm, hpl, _⟩ := hinv
    rw [uf.rootOf_def, hpl]; exact hpm.root_mem hb
  have hra_root : ((uf.find a).1.find b).1.parentOf (uf.rootOf a) = uf.rootOf a := by
    have h3 : iterRoot ((uf.find a).1.find b).1.parentOf n a = uf.rootOf a := by
      rw [← hroot2_eq]; exact huf2roots a
    have h4 := hpm2.root_isRoot a
    rwa [h3] at h4
  have hrb_root : ((uf.find a).1.find b).1.parentOf (uf.rootOf b) = uf.rootOf b := by
    have h3 : iterRoot ((uf.find a).1.find b).1.parentOf n b = uf.rootOf b := by
      rw [← hroot2_eq]; exact huf2roots b
    have h4 := hpm2.root_isRoot b
    rwa [h3] at h4
  by_cases hrarb : (uf.find a).2 = ((uf.find a).1.find b).2
  · have hU : uf.union a b = ((uf.find a).1.find b).1 := by
      simp only [UnionFind.union]
      rw [if_pos hrarb]
    have hab : uf.rootOf a = uf.rootOf b := by
      rw [← hra_eq, ← hrb_eq]; exact hrarb
    refine ⟨by rw [hU]; exact ⟨hpm2, hpl2, hrl2⟩, uf.rootOf a, Or.inl rfl, ?_⟩
    intro y
    rw [hU, huf2roots y]
    by_cases hc : uf.rootOf y = uf.rootOf a ∨ uf.rootOf y = uf.rootOf b
    · rw [if_pos hc]
      rcases hc with h | h
      · exact h
      · rw [h, ← hab]
    · rw [if_neg hc]
  · have hne : uf.rootOf a ≠ uf.rootOf b := by
      rw [← hra_eq, ← hrb_eq]; exact hrarb
    by_cases hAB : ((uf.find a).1.find b).1.rankOf ((uf.find a).2) <
        ((uf.find a).1.find b).1.rankOf (((uf.find a).1.find b).2)
    · -- rank[ra] < rank[rb]: ra is linked under rb
      have hU : uf.union a b =
          ⟨((uf.find a).1.find b).1.parent.set (uf.rootOf a) (uf.rootOf b),
           ((uf.find a).1.find b).1.rank⟩ := by
        simp only [UnionFind.union]
        rw [if_neg hrarb, if_pos hAB, hra_eq, hrb_eq]
      rw [hra_eq, hrb_eq] at hAB
      obtain ⟨hinvR, hrootsR⟩ := UnionFind.link_case ⟨hpm2, hpl2, hrl2⟩
        hra_root hrb_root hran hrbn hne ((uf.find a).1.find b).1.rank hrl2 hAB
        (fun y hy hnr => hpm2.inc y hy hnr)
      refine ⟨by rw [hU]; exact hinvR, uf.rootOf b, Or.inr rfl, ?_⟩
      intro y
      rw [hU, hrootsR y, huf2roots y]
      by_cases h1 : uf.rootOf y = uf.rootOf a
      · rw [if_pos h1, if_pos (Or.inl h1)]
      · rw [if_neg h1]
        by_cases h2 : uf.rootOf y = uf.rootOf b
        · rw [if_pos (Or.inr h2)]; exact h2
        · rw [if_neg (by tauto)]
    · by_cases hBA : ((uf.find a).1.find b).1.rankOf (((uf.find a).1.find b).2) <
          ((uf.find a).1.find b).1.rankOf ((uf.find a).2)
      · -- rank[rb] < rank[ra]: rb is linked under ra
        have hU : uf.union a b =
            ⟨((uf.find a).1.find b).1.parent.set (uf.rootOf b) (uf.rootOf a),
             ((uf.find a).1.find b).1.rank⟩ := by
          simp only [UnionFind.union]
          rw [if_neg hrarb, if_neg hAB, if_pos hBA, hra_eq, hrb_eq]
        rw [hra_eq, hrb_eq] at hBA
        obtain ⟨hinvR, hrootsR⟩ := UnionFind.link_case ⟨hpm2, hpl2, hrl2⟩
          hrb_root hra_root hrbn hran hne.symm ((uf.find a).1.find b).1.rank hrl2 hBA
          (fun y hy hnr => hpm2.inc y hy hnr)
        refine ⟨by rw [hU]; exact hinvR, uf.rootOf a, Or.inl rfl, ?_⟩
        intro y
        rw [hU, hrootsR y, huf2roots y]
        by_cases h2 : uf.rootOf y = uf.rootOf b
        · rw [if_pos h2, if_pos (Or.inr h2)]
        · rw [if_neg h2]
          by_cases h1 : uf.rootOf y = uf.rootOf a
          · rw [if_pos (Or.inl h1)]; exact h1
          · rw [if_neg (by tauto)]
      · -- equal ranks: rb is linked under ra and rank[ra] is bumped
        have hU : uf.union a b =
            ⟨((uf.find a).1.find b).1.parent.set (uf.rootOf b) (uf.rootOf a),
             ((uf.find a).1.find b).1.rank.set (uf.rootOf a)
               (((uf.find a).1.find b).1.rankOf ((uf.rootOf a)) + 1)⟩ := by
          simp only [UnionFind.union]
          rw [if_neg hrarb, if_neg hAB, if_neg hBA, hra_eq, hrb_eq]
        rw [hra_eq, hrb_eq] at hAB hBA
        have hreq : ((uf.find a).1.find b).1.rankOf (uf.rootOf b) =
            ((uf.find a).1.find b).1.rankOf (uf.rootOf a) := by omega
        have hralen : uf.rootOf a < ((uf.find a).1.find b).1.rank.length := by omega
        have hrk1 : (((uf.find a).1.find b).1.rank.set (uf.rootOf a)
              (((uf.find a).1.find b).1.rankOf (uf.rootOf a) + 1)).getD (uf.rootOf b) 0 <
            (((uf.find a).1.find b).1.rank.set (uf.rootOf a)
              (((uf.find a).1.find b).1.rankOf (uf.rootOf a) + 1)).getD (uf.rootOf a) 0 := by
          rw [getD_set_ne _ _ _ hne, getD_set_self _ _ _ _ hralen]
          have : ((uf.find a).1.find b).1.rank.getD (uf.rootOf b) 0 =
              ((uf.find a).1.find b).1.rankOf (uf.rootOf b) := rfl
          rw [this, hreq]
          omega
        have hrk2 : ∀ y, y < n → ((uf.find a).1.find b).1.parentOf y ≠ y →
            (((uf.find a).1.find b).1.rank.set (uf.rootOf a)
              (((uf.find a).1.find b).1.rankOf (uf.rootOf a) + 1)).getD y 0 <
            (((uf.find a).1.find b).1.rank.set (uf.rootOf a)
              (((uf.find a).1.find b).1.rankOf (uf.rootOf a) + 1)).getD
              (((uf.find a).1.find b).1.parentOf y) 0 := by
          intro y hy hnr
          have hyra : uf.rootOf a ≠ y := fun h => hnr (by rw [← h]; exact hra_root)
          rw [getD_set_ne _ _ _ hyra]
          by_cases hp2 : ((uf.find a).1.find b).1.parentOf y = uf.rootOf a
          · rw [hp2, getD_set_self _ _ _ _ hralen]
            have h5 := hpm2.inc y hy hnr
            rw [hp2] at h5
            have h6 : ((uf.find a).1.find b).1.rank.getD y 0 =
                ((uf.find a).1.find b).1.rankOf y := rfl
            rw [h6]
            omega
          · rw [getD_set_ne _ _ _ (fun h => hp2 h.symm)]
            exact hpm2.inc y hy hnr
        obtain ⟨hinvR, hrootsR⟩ := UnionFind.link_case ⟨hpm2, hpl2, hrl2⟩
          hrb_root hra_root hrbn hran hne.symm
          (((uf.find a).1.find b).1.rank.set (uf.rootOf a)
            (((uf.find a).1.find b).1.rankOf (uf.rootOf a) + 1))
          (by simpa using hrl2) hrk1 hrk2
        refine ⟨by rw [hU]; exact hinvR, uf.rootOf a, Or.inl rfl, ?_⟩
        intro y
        rw [hU, hrootsR y, huf2roots y]
        by_cases h2 : uf.rootOf y = uf.rootOf b
        · rw [if_pos h2, if_pos (Or.inr h2)]
        · rw [if_neg h2]
          by_cases h1 : uf.rootOf y = uf.rootOf a
          · rw [if_pos (Or.inl h1)]; exact h1
          · rw [if_neg (by tauto)]

theorem UnionFind.parentOf_init (n x : ℕ) : (UnionFind.init n).parentOf x = x := by
  by_cases hx : x < n
  · simp [UnionFind.init, UnionFind.parentOf, List.getD_eq_getElem?_getD,
      List.getElem?_range hx]
  · have hlen : (List.range n).length ≤ x := by simpa using Nat.le_of_not_lt hx
    simp [UnionFind.init, UnionFind.parentOf, List.getD_eq_getElem?_getD,
      List.getElem?_eq_none hlen]

theorem UnionFind.rootOf_init (n x : ℕ) : (UnionFind.init n).rootOf x = x := by
  rw [UnionFind.rootOf_def]
  exact iterRoot_fix _ (UnionFind.parentOf_init n x) _

theorem UFinv_init (n : ℕ) : UFinv n (UnionFind.init n) := by
  refine ⟨⟨?_, ?_, ?_⟩, by simp [UnionFind.init], by simp [UnionFind.init]⟩
  · intro x hx; rw [UnionFind.parentOf_init]; exact hx
  · intro x _; exact UnionFind.parentOf_init n x
  · intro x _ hne; exact absurd (UnionFind.parentOf_init n x) hne

/-- The number of distinct representatives among `0..n-1`: the number of
connected components tracked by the structure. -/
def cardClasses (n : ℕ) (uf : UnionFind) : ℕ :=
  ((Finset.range n).image uf.rootOf).card

theorem cardClasses_init (n : ℕ) : cardClasses n (UnionFind.init n) = n := by
  unfold cardClasses
  rw [Finset.image_congr (g := id) (fun x _ => UnionFind.rootOf_init n x),
    Finset.image_id, Finset.card_range]

/-- Redirecting every occurrence of the value `L` of `f` to another value
`W` of `f` shrinks the image by exactly one element. -/
theorem collapse_card {n W L : ℕ} (f : ℕ → ℕ)
    (hW : W ∈ (Finset.range n).image f) (hL : L ∈ (Finset.range n).image f)
    (hWL : W ≠ L) :
    ((Finset.range n).image (fun y => if f y = L then W else f y)).card =
      ((Finset.range n).image f).card - 1 := by
  have himg : (Finset.range n).image (fun y => if f y = L then W else f y) =
      ((Finset.range n).image f).erase L := by
    ext v
    simp only [Finset.mem_image, Finset.mem_erase, Finset.mem_range]
    constructor
    · rintro ⟨y, hy, hv⟩
      by_cases hfy : f y = L
      · rw [if_pos hfy] at hv
        subst hv
        simp only [Finset.mem_image, Finset.mem_range] at hW
        exact ⟨hWL, hW⟩
      · rw [if_neg hfy] at hv
        exact ⟨hv ▸ hfy, y, hy, hv⟩
    · rintro ⟨hvL, y, hy, hv⟩
      refine ⟨y, hy, ?_⟩
      rw [if_neg (hv ▸ hvL ∘ Eq.symm ∘ Eq.symm)]
      · exact hv
  rw [himg, Finset.card_erase_of_mem hL]

theorem UnionFind.union_cardClasses {n : ℕ} {uf : UnionFind} (hinv : UFinv n uf)
    {a b : ℕ} (ha : a < n) (hb : b < n) (hne : uf.rootOf a ≠ uf.rootOf b) :
    cardClasses n (uf.union a b) = cardClasses n uf - 1 ∧ 1 ≤ cardClasses n uf := by
  obtain ⟨_, w, hw, hchar⟩ := UnionFind.union_spec hinv ha hb
  have hmemA : uf.rootOf a ∈ (Finset.range n).image uf.rootOf :=
    Finset.mem_image.mpr ⟨a, Finset.mem_range.mpr ha, rfl⟩
  have hmemB : uf.rootOf b ∈ (Finset.range n).image uf.rootOf :=
    Finset.mem_image.mpr ⟨b, Finset.mem_range.mpr hb, rfl⟩
  have hpos : 1 ≤ cardClasses n uf :=
    Finset.card_pos.mpr ⟨uf.rootOf a, hmemA⟩
  refine ⟨?_, hpos⟩
  rcases hw with hwa | hwb
  · -- winner is root a, loser is root b
    have hchar2 : ∀ y, (uf.union a b).rootOf y =
        if uf.rootOf y = uf.rootOf b then w else uf.rootOf y := by
      intro y
      rw [hchar y]
      by_cases h2 : uf.rootOf y = uf.rootOf b
      · rw [if_pos (Or.inr h2), if_pos h2]
      · by_cases h1 : uf.rootOf y = uf.rootOf a
        · rw [if_pos (Or.inl h1), if_neg h2, hwa, h1]
        · rw [if_neg (by tauto), if_neg h2]
    unfold cardClasses
    rw [Finset.image_congr (g := fun y => if uf.rootOf y = uf.rootOf b then w
      else uf.rootOf y) (fun y _ => hchar2 y)]
    exact collapse_card uf.rootOf (hwa ▸ hmemA) hmemB (hwa ▸ hne)
  · -- winner is root b, loser is root a
    have hchar2 : ∀ y, (uf.union a b).rootOf y =
        if uf.rootOf y = uf.rootOf a then w else uf.rootOf y := by
      intro y
      rw [hchar y]
      by_cases h1 : uf.rootOf y = uf.rootOf a
      · rw [if_pos (Or.inl h1), if_pos h1]
      · by_cases h2 : uf.rootOf y = uf.rootOf b
        · rw [if_pos (Or.inr h2), if_neg h1, hwb, h2]
        · rw [if_neg (by tauto), if_neg h1]
    unfold cardClasses
    rw [Finset.image_congr (g := fun y => if uf.rootOf y = uf.rootOf a then w
      else uf.rootOf y) (fun y _ => hchar2 y)]
    exact collapse_card uf.rootOf (hwb ▸ hmemB) hmemA (hwb ▸ hne.symm)

/-! ### Connectivity lemmas -/

theorem Conn.mono {E E2 : List (ℕ × ℕ)} (hsub : ∀ e, e ∈ E → e ∈ E2) {x y : ℕ}
    (h : Conn E x y) : Conn E2 x y := by
  induction h with
  | rel hmem => exact Conn.rel (hsub _ hmem)
  | refl x => exact Conn.refl x
  | symm _ ih => exact ih.symm
  | trans _ _ ih1 ih2 => exact ih1.trans ih2

theorem Conn.nil_eq {x y : ℕ} (h : Conn [] x y) : x = y := by
  induction h with
  | rel hmem => simp at hmem
  | refl x => rfl
  | symm _ ih => exact ih.symm
  | trans _ _ ih1 ih2 => exact ih1.trans ih2

theorem conn_append_iff {E : List (ℕ × ℕ)} {a b : ℕ} (x y : ℕ) :
    Conn (E ++ [(a, b)]) x y ↔
      Conn E x y ∨ (Conn E x a ∧ Conn E b y) ∨ (Conn E x b ∧ Conn E a y) := by
  constructor
  · intro h
    induction h with
    | rel hmem =>
      rcases List.mem_append.mp hmem with hE | hab
      · exact Or.inl (Conn.rel hE)
      · simp only [List.mem_singleton] at hab
        rcases Prod.mk.injEq .. ▸ hab with ⟨hx, hy⟩
        subst hx; subst hy
        exact Or.inr (Or.inl ⟨Conn.refl _, Conn.refl _⟩)
    | refl x => exact Or.inl (Conn.refl x)
    | symm _ ih =>
      rcases ih with h1 | ⟨h1, h2⟩ | ⟨h1, h2⟩
      · exact Or.inl h1.symm
      · exact Or.inr (Or.inr ⟨h2.symm, h1.symm⟩)
      · exact Or.inr (Or.inl ⟨h2.symm, h1.symm⟩)
    | trans _ _ ih1 ih2 =>
      rcases ih1 with h1 | ⟨h1a, h1b⟩ | ⟨h1a, h1b⟩ <;>
        rcases ih2 with h2 | ⟨h2a, h2b⟩ | ⟨h2a, h2b⟩
      · exact Or.inl (h1.trans h2)
      · exact Or.inr (Or.inl ⟨h1.trans h2a, h2b⟩)
      · exact Or.inr (Or.inr ⟨h1.trans h2a, h2b⟩)
      · exact Or.inr (Or.inl ⟨h1a, h1b.trans h2⟩)
      · exact Or.inr (Or.inl ⟨h1a, h2b⟩)
      · exact Or.inl (h1a.trans h2b)
      · exact Or.inr (Or.inr ⟨h1a, h1b.trans h2⟩)
      · exact Or.inl (h1a.trans h2b)
      · exact Or.inr (Or.inr ⟨h1a, h2b⟩)
  · intro h
    have hsub : ∀ e, e ∈ E → e ∈ E ++ [(a, b)] := fun e he => List.mem_append_left _ he
    have hedge : Conn (E ++ [(a, b)]) a b :=
      Conn.rel (List.mem_append_right _ (List.mem_singleton.mpr rfl))
    rcases h with h1 | ⟨h1, h2⟩ | ⟨h1, h2⟩
    · exact h1.mono hsub
    · exact ((h1.mono hsub).trans hedge).trans (h2.mono hsub)
    · exact ((h1.mono hsub).trans hedge.symm).trans (h2.mono hsub)

theorem pairsM_map_toMst (K : List Edge) : pairsM (K.map toMst) = pairsE K := by
  simp only [pairsM, pairsE, toMst, List.map_map]
  rfl

theorem pairsE_append_single (K : List Edge) (e : Edge) :
    pairsE (K ++ [e]) = pairsE K ++ [(e.a, e.b)] := by
  simp [pairsE]

theorem cardClasses_congr {n : ℕ} {uf1 uf2 : UnionFind}
    (h : ∀ y, uf1.rootOf y = uf2.rootOf y) : cardClasses n uf1 = cardClasses n uf2 := by
  unfold cardClasses
  rw [Finset.image_congr (fun y _ => h y)]

theorem collapse_eq_iff {ra rb w rx ry : ℕ} (hw : w = ra ∨ w = rb) :
    ((if rx = ra ∨ rx = rb then w else rx) = (if ry = ra ∨ ry = rb then w else ry)) ↔
      (rx = ry ∨ (rx = ra ∧ rb = ry) ∨ (rx = rb ∧ ra = ry)) := by
  by_cases h1 : rx = ra ∨ rx = rb
  · by_cases h2 : ry = ra ∨ ry = rb
    · rw [if_pos h1, if_pos h2]
      constructor
      · intro _
        rcases h1 with hx | hx <;> rcases h2 with hy | hy
        · exact Or.inl (hx.trans hy.symm)
        · exact Or.inr (Or.inl ⟨hx, hy.symm⟩)
        · exact Or.inr (Or.inr ⟨hx, hy.symm⟩)
        · exact Or.inl (hx.trans hy.symm)
      · intro _; rfl
    · rw [if_pos h1, if_neg h2]
      constructor
      · intro hwy
        exfalso
        rcases hw with hw1 | hw1 <;> rw [hw1] at hwy
        · exact h2 (Or.inl hwy.symm)
        · exact h2 (Or.inr hwy.symm)
      · intro hor
        exfalso
        rcases hor with h | ⟨hxa, hby⟩ | ⟨hxb, hay⟩
        · rcases h1 with hx | hx
          · exact h2 (Or.inl (h.symm.trans hx))
          · exact h2 (Or.inr (h.symm.trans hx))
        · exact h2 (Or.inr hby.symm)
        · exact h2 (Or.inl hay.symm)
  · by_cases h2 : ry = ra ∨ ry = rb
    · rw [if_neg h1, if_pos h2]
      constructor
      · intro hwy
        exfalso
        rcases hw with hw1 | hw1 <;> rw [hw1] at hwy
        · exact h1 (Or.inl hwy)
        · exact h1 (Or.inr hwy)
      · intro hor
        exfalso
        rcases hor with h | ⟨hxa, hby⟩ | ⟨hxb, hay⟩
        · rcases h2 with hy | hy
          · exact h1 (Or.inl (h.trans hy))
          · exact h1 (Or.inr (h.trans hy))
        · exact h1 (Or.inl hxa)
        · exact h1 (Or.inr hxb)
    · rw [if_neg h1, if_neg h2]
      constructor
      · intro h; exact Or.inl h
      · intro hor
        rcases hor with h | ⟨hxa, hby⟩ | ⟨hxb, hay⟩
        · exact h
        · exact absurd (Or.inl hxa) h1
        · exact absurd (Or.inr hxb) h1

/-- The abstract Kruskal scan: process edges in order; accept an edge iff
its endpoints are not yet connected by the accepted edges; stop as soon as
`n - 1` edges are accepted. `Greedy n rest K K2` relates the remaining
edge list and the already accepted list `K` to the final accepted list. -/
inductive Greedy (n : ℕ) : List Edge → List Edge → List Edge → Prop where
  | nil (K : List Edge) : Greedy n [] K K
  | acceptBreak {e : Edge} {rest K : List Edge} :
      ¬ Conn (pairsE K) e.a e.b → (K ++ [e]).length = n - 1 →
      Greedy n (e :: rest) K (K ++ [e])
  | acceptCont {e : Edge} {rest K K2 : List Edge} :
      ¬ Conn (pairsE K) e.a e.b → (K ++ [e]).length ≠ n - 1 →
      Greedy n rest (K ++ [e]) K2 →
      Greedy n (e :: rest) K K2
  | reject {e : Edge} {rest K K2 : List Edge} :
      Conn (pairsE K) e.a e.b →
      Greedy n rest K K2 →
      Greedy n (e :: rest) K K2

/-- Invariant of the Kruskal scan state: the structure is well formed, two
indices share a representative exactly when the accepted edges connect
them, and the accepted count plus the component count is `n`. -/
def KruskalInv (n : ℕ) (uf : UnionFind) (K : List Edge) : Prop :=
  UFinv n uf ∧
  (∀ x y, x < n → y < n → (uf.rootOf x = uf.rootOf y ↔ Conn (pairsE K) x y)) ∧
  K.length + cardClasses n uf = n

theorem kruskal_run (n : ℕ) :
    ∀ rest K uf, KruskalInv n uf K →
      (∀ e, e ∈ rest → e.a < n ∧ e.b < n) →
      ∃ K2, Greedy n rest K K2 ∧
        (kruskalLoop n rest uf (K.map toMst)).2 = K2.map toMst ∧
        KruskalInv n (kruskalLoop n rest uf (K.map toMst)).1 K2 := by
  intro rest
  induction rest with
  | nil =>
    intro K uf hinv _
    exact ⟨K, Greedy.nil K, rfl, hinv⟩
  | cons e rest ih =>
    intro K uf hinv hmem
    obtain ⟨hufinv, hiff, hcount⟩ := hinv
    have hea : e.a < n := (hmem e (List.mem_cons_self e rest)).1
    have heb : e.b < n := (hmem e (List.mem_cons_self e rest)).2
    have hmem' : ∀ f, f ∈ rest → f.a < n ∧ f.b < n :=
      fun f hf => hmem f (List.mem_cons_of_mem e hf)
    obtain ⟨h1val, h1inv, h1rank, h1roots⟩ := UnionFind.find_spec hufinv hea
    obtain ⟨h2val, h2inv, h2rank, h2roots⟩ := UnionFind.find_spec h1inv heb
    have huf2roots : ∀ y, ((uf.find e.a).1.find e.b).1.rootOf y = uf.rootOf y :=
      fun y => (h2roots y).trans (h1roots y)
    have hfa2 : (uf.find e.a).2 = uf.rootOf e.a := h1val
    have hfb2 : ((uf.find e.a).1.find e.b).2 = uf.rootOf e.b := by
      rw [h2val, h1roots e.b]
    have hunfold : kruskalLoop n (e :: rest) uf (K.map toMst) =
        if (uf.find e.a).2 ≠ ((uf.find e.a).1.find e.b).2 then
          (if (K.map toMst ++ [toMst e]).length = n - 1
           then (((uf.find e.a).1.find e.b).1.union e.a e.b, K.map toMst ++ [toMst e])
           else kruskalLoop n rest (((uf.find e.a).1.find e.b).1.union e.a e.b)
             (K.map toMst ++ [toMst e]))
        else kruskalLoop n rest ((uf.find e.a).1.find e.b).1 (K.map toMst) := by
      simp only [kruskalLoop]
    by_cases hcond : (uf.find e.a).2 = ((uf.find e.a).1.find e.b).2
    · -- roots equal: the edge is rejected
      have hreq : uf.rootOf e.a = uf.rootOf e.b := by
        rw [← hfa2, ← hfb2]; exact hcond
      have hconn : Conn (pairsE K) e.a e.b := (hiff e.a e.b hea heb).mp hreq
      have hstep : kruskalLoop n (e :: rest) uf (K.map toMst) =
          kruskalLoop n rest ((uf.find e.a).1.find e.b).1 (K.map toMst) := by
        rw [hunfold, if_neg (not_not_intro hcond)]
      have hinv2 : KruskalInv n ((uf.find e.a).1.find e.b).1 K := by
        refine ⟨h2inv, ?_, ?_⟩
        · intro x y hx hy
          rw [huf2roots x, huf2roots y]
          exact hiff x y hx hy
        · rw [cardClasses_congr huf2roots]
          exact hcount
      obtain ⟨K2, hG, hval, hinv3⟩ := ih K ((uf.find e.a).1.find e.b).1 hinv2 hmem'
      exact ⟨K2, Greedy.reject hconn hG, by rw [hstep]; exact hval,
        by rw [hstep]; exact hinv3⟩
    · -- roots differ: the edge is accepted
      have hrne : uf.rootOf e.a ≠ uf.rootOf e.b := by
        rw [← hfa2, ← hfb2]; exact hcond
      have hnotconn : ¬ Conn (pairsE K) e.a e.b :=
        fun hc => hrne ((hiff e.a e.b hea heb).mpr hc)
      obtain ⟨hinv3, w, hw, hchar⟩ := UnionFind.union_spec h2inv hea heb
      have hchar' : ∀ y, (((uf.find e.a).1.find e.b).1.union e.a e.b).rootOf y =
          if uf.rootOf y = uf.rootOf e.a ∨ uf.rootOf y = uf.rootOf e.b then w
          else uf.rootOf y := by
        intro y
        rw [hchar y, huf2roots y, huf2roots e.a, huf2roots e.b]
      have hw' : w = uf.rootOf e.a ∨ w = uf.rootOf e.b := by
        rcases hw with h | h
        · exact Or.inl (by rw [h, huf2roots e.a])
        · exact Or.inr (by rw [h, huf2roots e.b])
      have hiff2 : ∀ x y, x < n → y < n →
          ((((uf.find e.a).1.find e.b).1.union e.a e.b).rootOf x =
            (((uf.find e.a).1.find e.b).1.union e.a e.b).rootOf y ↔
          Conn (pairsE (K ++ [e])) x y) := by
        intro x y hx hy
        rw [hchar' x, hchar' y, pairsE_append_single, conn_append_iff,
          collapse_eq_iff hw']
        rw [← hiff x y hx hy, ← hiff x e.a hx hea, ← hiff e.b y heb hy,
          ← hiff x e.b hx heb, ← hiff e.a y hea hy]
      have hmemclass := UnionFind.union_cardClasses h2inv hea heb
        (by rw [huf2roots e.a, huf2roots e.b]; exact hrne)
      have hcount2 : (K ++ [e]).length +
          cardClasses n (((uf.find e.a).1.find e.b).1.union e.a e.b) = n := by
        obtain ⟨hc1, hc2⟩ := hmemclass
        rw [cardClasses_congr huf2roots] at hc1 hc2
        simp only [List.length_append, List.length_singleton]
        rw [hc1]
        omega
      have hinvU : KruskalInv n (((uf.find e.a).1.find e.b).1.union e.a e.b) (K ++ [e]) :=
        ⟨hinv3, hiff2, hcount2⟩
      have hlen : (K.map toMst ++ [toMst e]).length = (K ++ [e]).length := by
        simp
      by_cases hbreak : (K.map toMst ++ [toMst e]).length = n - 1
      · have hstep : kruskalLoop n (e :: rest) uf (K.map toMst) =
            (((uf.find e.a).1.find e.b).1.union e.a e.b, K.map toMst ++ [toMst e]) := by
          rw [hunfold, if_pos hcond, if_pos hbreak]
        refine ⟨K ++ [e], Greedy.acceptBreak hnotconn (by rw [← hlen]; exact hbreak),
          ?_, ?_⟩
        · rw [hstep]; simp
        · rw [hstep]; exact hinvU
      · have hstep : kruskalLoop n (e :: rest) uf (K.map toMst) =
            kruskalLoop n rest (((uf.find e.a).1.find e.b).1.union e.a e.b)
              (K.map toMst ++ [toMst e]) := by
          rw [hunfold, if_pos hcond, if_neg hbreak]
        have hmap : K.map toMst ++ [toMst e] = (K ++ [e]).map toMst := by simp
        obtain ⟨K2, hG, hval, hinv4⟩ := ih (K ++ [e])
          (((uf.find e.a).1.find e.b).1.union e.a e.b) hinvU hmem'
        refine ⟨K2, Greedy.acceptCont hnotconn (by rw [← hlen]; exact hbreak) hG, ?_, ?_⟩
        · rw [hstep, hmap]; exact hval
        · rw [hstep, hmap]; exact hinv4

theorem pairsE_mono {K K2 : List Edge} (h : ∀ x, x ∈ K → x ∈ K2) :
    ∀ q, q ∈ pairsE K → q ∈ pairsE K2 := by
  intro q hq
  simp only [pairsE, List.mem_map] at hq ⊢
  obtain ⟨ed, hed, hq⟩ := hq
  exact ⟨ed, h ed hed, hq⟩

theorem Greedy.append_sublist {n : ℕ} {rest K K2 : List Edge} (h : Greedy n rest K K2) :
    ∃ L, K2 = K ++ L ∧ L.Sublist rest := by
  induction h with
  | nil K => exact ⟨[], by simp, List.nil_sublist []⟩
  | @acceptBreak e rest K hnc hlen =>
    exact ⟨[e], rfl, (List.cons_sublist_cons).mpr (List.nil_sublist rest)⟩
  | @acceptCont e rest K K2 hnc hlen hG ih =>
    obtain ⟨L, hK2, hsub⟩ := ih
    exact ⟨e :: L, by simpa using hK2, (List.cons_sublist_cons).mpr hsub⟩
  | @reject e rest K K2 hc hG ih =>
    obtain ⟨L, hK2, hsub⟩ := ih
    exact ⟨L, hK2, hsub.cons e⟩

theorem Greedy.complete {n : ℕ} {rest K K2 : List Edge} (h : Greedy n rest K K2) :
    ∀ e, e ∈ rest → Conn (pairsE K2) e.a e.b ∨ K2.length = n - 1 := by
  induction h with
  | nil K => intro e he; simp at he
  | @acceptBreak e rest K hnc hlen =>
    intro f hf
    rcases List.mem_cons.mp hf with hfe | hfr
    · subst hfe
      left
      exact Conn.rel (by simp [pairsE])
    · right
      exact hlen
  | @acceptCont e rest K K2 hnc hlen hG ih =>
    intro f hf
    rcases List.mem_cons.mp hf with hfe | hfr
    · subst hfe
      obtain ⟨L, hK2, _⟩ := hG.append_sublist
      left
      refine Conn.rel ?_
      rw [hK2]
      simp [pairsE]
    · exact ih f hfr
  | @reject e rest K K2 hc hG ih =>
    intro f hf
    rcases List.mem_cons.mp hf with hfe | hfr
    · subst hfe
      obtain ⟨L, hK2, _⟩ := hG.append_sublist
      left
      refine hc.mono (pairsE_mono ?_)
      intro k hk
      rw [hK2]
      exact List.mem_append_left _ hk
    · exact ih f hfr

theorem Greedy.forest {n : ℕ} {rest K K2 : List Edge} (h : Greedy n rest K K2) :
    ∀ K1 f K3, K2 = K1 ++ f :: K3 → K.length ≤ K1.length →
      ¬ Conn (pairsE K1) f.a f.b := by
  induction h with
  | nil K =>
    intro K1 f K3 hdec hlen
    exfalso
    have := congrArg List.length hdec
    simp at this
    omega
  | @acceptBreak e rest K hnc hlenK =>
    intro K1 f K3 hdec hlen
    have hlen2 := congrArg List.length hdec
    simp at hlen2
    have hK1len : K.length = K1.length := by omega
    obtain ⟨hKK1, hfe⟩ := List.append_inj hdec hK1len
    have hfe2 : f = e := by
      have := hfe
      simp at this
      exact this.1.symm
    subst hfe2
    rw [← hKK1]
    exact hnc
  | @acceptCont e rest K K2 hnc hlenK hG ih =>
    intro K1 f K3 hdec hlen
    rcases Nat.lt_or_ge K1.length (K ++ [e]).length with hlt | hge
    · have hK1len : K.length = K1.length := by
        simp at hlt
        omega
      obtain ⟨L, hK2, _⟩ := hG.append_sublist
      have hdec2 : K ++ (e :: L) = K1 ++ f :: K3 := by
        rw [← hdec, hK2]
        simp
      obtain ⟨hKK1, hfe⟩ := List.append_inj hdec2 hK1len
      have hfe2 : f = e := by
        have := hfe
        simp at this
        exact this.1.symm
      subst hfe2
      rw [← hKK1]
      exact hnc
    · exact ih K1 f K3 hdec (by simpa using hge)
  | @reject e rest K K2 hc hG ih => exact ih

theorem Greedy.reject_conn {n : ℕ} {rest K K2 : List Edge} (h : Greedy n rest K K2) :
    ∀ pre f post, rest = pre ++ f :: post → f ∉ K2 →
      (K ++ rest).Nodup →
      (∀ x y, x < n → y < n → Conn (pairsE K2) x y) →
      f.a < n → f.b < n →
      Conn (pairsE (K2.filter (fun k => k ∈ K ++ pre))) f.a f.b := by
  induction h with
  | nil K =>
    intro pre f post hdec
    exact absurd hdec (by simp)
  | @acceptBreak e rest K hnc hlenK =>
    intro pre f post hdec hfK2 hnd hspan hfa hfb
    cases pre with
    | nil =>
      simp only [List.nil_append] at hdec
      have hef : e = f := (List.cons.injEq ..).mp hdec |>.1
      exact absurd (by rw [← hef]; exact List.mem_append_right _ (by simp)) hfK2
    | cons e0 pre' =>
      have he0 : e = e0 := by
        have h2 : e :: rest = e0 :: (pre' ++ f :: post) := by simpa using hdec
        exact ((List.cons.injEq ..).mp h2).1
      have hfilter : (K ++ [e]).filter (fun k => k ∈ K ++ e0 :: pre') = K ++ [e] := by
        apply List.filter_eq_self.mpr
        intro k hk
        rcases List.mem_append.mp hk with h1 | h1
        · simp [List.mem_append.mpr (Or.inl h1)]
        · simp only [List.mem_singleton] at h1
          subst h1
          simp [he0]
      rw [hfilter]
      exact hspan f.a f.b hfa hfb
  | @acceptCont e rest K K2 hnc hlenK hG ih =>
    intro pre f post hdec hfK2 hnd hspan hfa hfb
    cases pre with
    | nil =>
      simp only [List.nil_append] at hdec
      have hef : e = f := (List.cons.injEq ..).mp hdec |>.1
      obtain ⟨L, hK2, _⟩ := hG.append_sublist
      exfalso
      apply hfK2
      rw [← hef, hK2]
      exact List.mem_append_left _ (List.mem_append_right _ (by simp))
    | cons e0 pre' =>
      have h2 : e :: rest = e0 :: (pre' ++ f :: post) := by simpa using hdec
      have he0 : e = e0 := ((List.cons.injEq ..).mp h2).1
      have hrest : rest = pre' ++ f :: post := ((List.cons.injEq ..).mp h2).2
      have hnd2 : ((K ++ [e]) ++ rest).Nodup := by
        have : (K ++ [e]) ++ rest = K ++ e :: rest := by simp
        rw [this]
        exact hnd
      have hres := ih pre' f post hrest hfK2 hnd2 hspan hfa hfb
      have heq : (K ++ [e]) ++ pre' = K ++ e0 :: pre' := by
        rw [← he0]
        simp
      rw [← heq]
      exact hres
  | @reject e rest K K2 hc hG ih =>
    intro pre f post hdec hfK2 hnd hspan hfa hfb
    obtain ⟨L, hK2, hLsub⟩ := hG.append_sublist
    have hndK : K.Nodup := (List.nodup_append.mp hnd).1
    have hndR : (e :: rest).Nodup := (List.nodup_append.mp hnd).2.1
    have hdisj : ∀ x, x ∈ K → x ∈ e :: rest → False := by
      have := (List.nodup_append.mp hnd).2.2
      intro x hx1 hx2
      exact this hx1 hx2
    cases pre with
    | nil =>
      simp only [List.nil_append] at hdec
      have hef : e = f := (List.cons.injEq ..).mp hdec |>.1
      subst hef
      refine hc.mono (pairsE_mono ?_)
      intro k hk
      rw [List.mem_filter]
      constructor
      · rw [hK2]
        exact List.mem_append_left _ hk
      · simp [hk]
    | cons e0 pre' =>
      have h2 : e :: rest = e0 :: (pre' ++ f :: post) := by simpa using hdec
      have he0 : e = e0 := ((List.cons.injEq ..).mp h2).1
      have hrest : rest = pre' ++ f :: post := ((List.cons.injEq ..).mp h2).2
      have heK2 : e ∉ K2 := by
        intro hmem2
        rw [hK2] at hmem2
        rcases List.mem_append.mp hmem2 with h1 | h1
        · exact hdisj e h1 (List.mem_cons_self e rest)
        · have : e ∈ rest := hLsub.subset h1
          exact (List.nodup_cons.mp hndR).1 this
      have hnd2 : (K ++ rest).Nodup := by
        refine List.Nodup.sublist ?_ hnd
        refine List.Sublist.append_left ?_ K
        exact List.sublist_cons_self e rest
      have hres := ih pre' f post hrest hfK2 hnd2 hspan hfa hfb
      have hfe : K2.filter (fun k => k ∈ K ++ e0 :: pre') =
          K2.filter (fun k => k ∈ K ++ pre') := by
        apply List.filter_congr
        intro k hk
        have hke : k ≠ e0 := fun hkeq => heK2 (by rw [he0, ← hkeq]; exact hk)
        rw [decide_eq_decide]
        simp only [List.mem_append, List.mem_cons]
        tauto
      rw [hfe]
      exact hres

theorem cardClasses_one_all {n : ℕ} {uf : UnionFind} (hc : cardClasses n uf = 1)
    {x y : ℕ} (hx : x < n) (hy : y < n) : uf.rootOf x = uf.rootOf y := by
  unfold cardClasses at hc
  obtain ⟨v, hv⟩ := Finset.card_eq_one.mp hc
  have h1 : uf.rootOf x ∈ (Finset.range n).image uf.rootOf :=
    Finset.mem_image.mpr ⟨x, Finset.mem_range.mpr hx, rfl⟩
  have h2 : uf.rootOf y ∈ (Finset.range n).image uf.rootOf :=
    Finset.mem_image.mpr ⟨y, Finset.mem_range.mpr hy, rfl⟩
  rw [hv, Finset.mem_singleton] at h1 h2
  rw [h1, h2]

theorem all_cardClasses_one {n : ℕ} {uf : UnionFind} (hn : 1 ≤ n)
    (h : ∀ x y, x < n → y < n → uf.rootOf x = uf.rootOf y) : cardClasses n uf = 1 := by
  unfold cardClasses
  apply Finset.card_eq_one.mpr
  refine ⟨uf.rootOf 0, ?_⟩
  ext v
  simp only [Finset.mem_image, Finset.mem_range, Finset.mem_singleton]
  constructor
  · rintro ⟨y, hy, hv⟩
    rw [← hv]
    exact h y 0 hy hn
  · intro hv
    exact ⟨0, hn, hv.symm⟩

/-- Combined result of running the Kruskal scan from the initial state on a
complete edge list: the accepted set is a greedy forest of size `n - 1`
spanning all indices, and the returned `mstEdges` are its projections. -/
theorem kruskal_final {n : ℕ} {sorted : List Edge} (hn : 2 ≤ n)
    (hmem : ∀ e, e ∈ sorted → e.a < n ∧ e.b < n)
    (hcomplete : ∀ i j, i < j → j < n → ∃ e, e ∈ sorted ∧ e.a = i ∧ e.b = j) :
    ∃ K2, Greedy n sorted [] K2 ∧
      (kruskalLoop n sorted (UnionFind.init n) []).2 = K2.map toMst ∧
      KruskalInv n (kruskalLoop n sorted (UnionFind.init n) []).1 K2 ∧
      K2.length = n - 1 ∧
      (∀ x y, x < n → y < n → Conn (pairsE K2) x y) := by
  have hinit : KruskalInv n (UnionFind.init n) [] := by
    refine ⟨UFinv_init n, ?_, ?_⟩
    · intro x y hx hy
      rw [UnionFind.rootOf_init, UnionFind.rootOf_init]
      constructor
      · intro hxy
        subst hxy
        exact Conn.refl x
      · intro hc
        exact Conn.nil_eq (by simpa [pairsE] using hc)
    · rw [cardClasses_init]
      simp
  have hrun := kruskal_run n sorted [] (UnionFind.init n) hinit hmem
  simp only [List.map_nil] at hrun
  obtain ⟨K2, hG, hval, hinv2⟩ := hrun
  obtain ⟨hufinv2, hiff2, hcount2⟩ := hinv2
  have hspan : ∀ x y, x < n → y < n → Conn (pairsE K2) x y := by
    by_cases hbl : K2.length = n - 1
    · have hc1 : cardClasses n (kruskalLoop n sorted (UnionFind.init n) []).1 = 1 := by
        omega
      intro x y hx hy
      exact (hiff2 x y hx hy).mp (cardClasses_one_all hc1 hx hy)
    · intro x y hx hy
      rcases Nat.lt_trichotomy x y with hlt | heq | hgt
      · obtain ⟨e, hes, hea, heb⟩ := hcomplete x y hlt hy
        rcases hG.complete e hes with hc | hc
        · rw [hea, heb] at hc
          exact hc
        · exact absurd hc hbl
      · subst heq
        exact Conn.refl x
      · obtain ⟨e, hes, hea, heb⟩ := hcomplete y x hgt hx
        rcases hG.complete e hes with hc | hc
        · rw [hea, heb] at hc
          exact hc.symm
        · exact absurd hc hbl
  have hlen : K2.length = n - 1 := by
    have hall : ∀ x y, x < n → y < n →
        (kruskalLoop n sorted (UnionFind.init n) []).1.rootOf x =
        (kruskalLoop n sorted (UnionFind.init n) []).1.rootOf y :=
      fun x y hx hy => (hiff2 x y hx hy).mpr (hspan x y hx hy)
    have hc1 := all_cardClasses_one (by omega) hall
    omega
  exact ⟨K2, hG, hval, ⟨hufinv2, hiff2, hcount2⟩, hlen, hspan⟩

/-! ### The complete connection graph -/

/-- All index pairs `(i, j)` with `i < j < n`, in scan order. -/
def allPairs (n : ℕ) : List (ℕ × ℕ) :=
  (List.range n).flatMap (fun i => (List.range' (i + 1) (n - (i + 1))).map (fun j => (i, j)))

theorem mem_allPairs {n : ℕ} {q : ℕ × ℕ} :
    q ∈ allPairs n ↔ q.1 < q.2 ∧ q.2 < n := by
  unfold allPairs
  simp only [List.mem_flatMap, List.mem_map, List.mem_range, List.mem_range'_1]
  constructor
  · rintro ⟨i, hi, j, ⟨hj1, hj2⟩, hq⟩
    subst hq
    simp only
    omega
  · rintro ⟨h1, h2⟩
    exact ⟨q.1, by omega, q.2, ⟨by omega, by omega⟩, rfl⟩

theorem allPairs_nodup (n : ℕ) : (allPairs n).Nodup := by
  unfold allPairs
  rw [List.nodup_flatMap]
  constructor
  · intro i _
    refine List.Nodup.map ?_ (List.nodup_range' ..)
    intro a b hab
    simpa using congrArg Prod.snd hab
  · refine List.Pairwise.imp ?_ (List.nodup_range n)
    intro i j hij
    intro q hq1 hq2
    simp only [List.mem_map] at hq1 hq2
    obtain ⟨a, _, ha⟩ := hq1
    obtain ⟨b, _, hb⟩ := hq2
    have hi2 : q.1 = i := by rw [← ha]
    have hj2 : q.1 = j := by rw [← hb]
    exact hij (hi2.symm.trans hj2)

theorem pairsE_buildEdges (G : GeoLib) (polys : List Geometry) :
    pairsE (buildEdges G polys) = allPairs polys.length := by
  unfold pairsE buildEdges allPairs
  rw [List.map_flatMap]
  congr 1
  funext i
  rw [List.map_map]
  rfl

theorem buildEdges_mem {G : GeoLib} {polys : List Geometry} {e : Edge} :
    e ∈ buildEdges G polys ↔
      e.a < e.b ∧ e.b < polys.length ∧
      e.seg = shortestSegmentBetween G (polys.getD e.a default) (polys.getD e.b default) ∧
      e.distance = pathLength G e.seg := by
  unfold buildEdges
  simp only [List.mem_flatMap, List.mem_map, List.mem_range, List.mem_range'_1]
  constructor
  · rintro ⟨i, hi, j, ⟨hj1, hj2⟩, hq⟩
    subst hq
    exact ⟨(by omega : i < j), (by omega : j < polys.length), rfl, rfl⟩
  · rintro ⟨h1, h2, h3, h4⟩
    refine ⟨e.a, by omega, e.b, ⟨by omega, by omega⟩, ?_⟩
    cases e with
    | mk a b distance seg =>
      simp only at h3 h4 ⊢
      rw [← h3, ← h4]

theorem buildEdges_nodup (G : GeoLib) (polys : List Geometry) :
    (buildEdges G polys).Nodup := by
  have h := allPairs_nodup polys.length
  rw [← pairsE_buildEdges G polys] at h
  exact List.Nodup.of_map _ h

theorem buildEdges_length (G : GeoLib) (polys : List Geometry) :
    (buildEdges G polys).length = polys.length * (polys.length - 1) / 2 := by
  have h1 : (buildEdges G polys).length = (pairsE (buildEdges G polys)).length := by
    simp [pairsE]
  rw [h1, pairsE_buildEdges]
  unfold allPairs
  rw [List.length_flatMap]
  have h2 : ∀ (m : ℕ) (f : ℕ → ℕ),
      ((List.range m).map f).sum = ∑ i in Finset.range m, f i := by
    intro m f
    induction m with
    | zero => simp
    | succ k ih => simp [List.range_succ, Finset.sum_range_succ, ih]
  have h3 : (List.map (List.length ∘ fun i =>
      (List.range' (i + 1) (polys.length - (i + 1))).map (fun j => (i, j)))
      (List.range polys.length)).sum =
      ∑ i in Finset.range polys.length, (polys.length - (i + 1)) := by
    rw [← h2 polys.length (fun i => polys.length - (i + 1))]
    congr 1
    apply List.map_congr_left
    intro i _
    simp
  rw [h3]
  have h4 : ∑ i in Finset.range polys.length, (polys.length - (i + 1)) =
      ∑ i in Finset.range polys.length, i := by
    have h5 := Finset.sum_range_reflect (fun i => i) polys.length
    rw [← h5]
    apply Finset.sum_congr rfl
    intro i hi
    simp only [Finset.mem_range] at hi
    omega
  rw [h4]
  have h6 := Finset.sum_range_id_mul_two polys.length
  omega

theorem sortEdges_perm (edges : List Edge) : List.Perm (sortEdges edges) edges :=
  List.mergeSort_perm edges _

theorem sortEdges_sorted (edges : List Edge) :
    List.Pairwise (fun x y : Edge => x.distance ≤ y.distance) (sortEdges edges) := by
  unfold sortEdges
  have h := @List.sorted_mergeSort Edge (fun x y : Edge => decide (x.distance ≤ y.distance))
    (fun a b c hab hbc => by simp_all; linarith)
    (fun a b => by simp [le_total]) edges
  exact h.imp (fun hb => by simpa using hb)

theorem map_tclone (features : List Geometry) : features.map tclone = features := by
  have h : tclone = id := rfl
  rw [h, List.map_id]

theorem mergePieces_nil (G : GeoLib) : mergePieces G [] = none := rfl

theorem mergePieces_aux (G : GeoLib) :
    ∀ (l : List Geometry) (s : Geometry),
      l.foldl (fun acc piece => match acc with
        | none => some piece
        | some t => some (G.gunion t piece)) (some s) = some (l.foldl G.gunion s) := by
  intro l
  induction l with
  | nil => intro s; rfl
  | cons p rest ih =>
    intro s
    simp only [List.foldl_cons]
    exact ih (G.gunion s p)

theorem mergePieces_cons (G : GeoLib) (p : Geometry) (rest : List Geometry) :
    mergePieces G (p :: rest) = some (rest.foldl G.gunion p) := by
  unfold mergePieces
  simp only [List.foldl_cons]
  exact mergePieces_aux G rest p

theorem merge_unfold {G : GeoLib} {features : List Geometry} {cf : Option ℚ}
    (hne : features.length ≠ 1) :
    mergePolygonsWithShortestCorridors G features cf =
      (match mergePieces G (features ++ ((kruskalLoop features.length
          (sortEdges (buildEdges G features)) (UnionFind.init features.length) []).2.map
            (fun e => G.buffer e.seg
              (corridorWidthKm (bboxDiagonalKm G (G.bbox features)) cf)))) with
      | none => Except.error "Union failed"
      | some out => Except.ok (out,
          ⟨sortEdges (buildEdges G features),
           (kruskalLoop features.length (sortEdges (buildEdges G features))
             (UnionFind.init features.length) []).2,
           (kruskalLoop features.length (sortEdges (buildEdges G features))
             (UnionFind.init features.length) []).2.map
             (fun e => G.buffer e.seg
               (corridorWidthKm (bboxDiagonalKm G (G.bbox features)) cf))⟩)) := by
  have h0 : mergePolygonsWithShortestCorridors G features cf =
      (if (features.map tclone).length = 1 then
        Except.ok ((features.map tclone).getD 0 default, ⟨[], [], []⟩)
      else
        match mergePieces G ((features.map tclone) ++
            ((kruskalLoop (features.map tclone).length
              (sortEdges (buildEdges G (features.map tclone)))
              (UnionFind.init (features.map tclone).length) []).2.map
                (fun e => G.buffer e.seg
                  (corridorWidthKm (bboxDiagonalKm G (G.bbox (features.map tclone))) cf)))) with
        | none => Except.error "Union failed"
        | some out => Except.ok (out,
            ⟨sortEdges (buildEdges G (features.map tclone)),
             (kruskalLoop (features.map tclone).length
               (sortEdges (buildEdges G (features.map tclone)))
               (UnionFind.init (features.map tclone).length) []).2,
             (kruskalLoop (features.map tclone).length
               (sortEdges (buildEdges G (features.map tclone)))
               (UnionFind.init (features.map tclone).length) []).2.map
               (fun e => G.buffer e.seg
                 (corridorWidthKm (bboxDiagonalKm G (G.bbox (features.map tclone))) cf))⟩)) := rfl
  rw [map_tclone] at h0
  rw [h0, if_neg hne]

/-- Inversion of a successful merge for `n ≠ 1`: the debug record is the
sorted pair list, the accepted MST edges and the buffered corridors, and the
output is the union of all pieces. -/
theorem merge_ok_inv {G : GeoLib} {features : List Geometry} {cf : Option ℚ}
    (hne : features.length ≠ 1) {out : Geometry} {dbg : MergeDebug}
    (h : mergePolygonsWithShortestCorridors G features cf = Except.ok (out, dbg)) :
    dbg = ⟨sortEdges (buildEdges G features),
           (kruskalLoop features.length (sortEdges (buildEdges G features))
             (UnionFind.init features.length) []).2,
           (kruskalLoop features.length (sortEdges (buildEdges G features))
             (UnionFind.init features.length) []).2.map
             (fun e => G.buffer e.seg
               (corridorWidthKm (bboxDiagonalKm G (G.bbox features)) cf))⟩ ∧
    mergePieces G (features ++ dbg.corridorPolygons) = some out := by
  rw [merge_unfold hne] at h
  split at h
  · exact absurd h (by simp)
  · rename_i out2 heq
    simp only [Except.ok.injEq, Prod.mk.injEq] at h
    obtain ⟨hout, hdbg⟩ := h
    subst hdbg
    refine ⟨rfl, ?_⟩
    rw [heq, hout]

/-- An example geometry capability over rational coordinates, used to
evaluate the statements on concrete inputs. -/
def egLib : GeoLib where
  dist := fun p q => |p.1 - q.1| + |p.2 - q.2|
  centroid := fun _ => (0, 0)
  buffer := fun ps w => Geometry.polygon [ps ++ [(w, w)]]
  gunion := fun a _ => a
  bbox := fun _ => (0, 0, 3, 4)

/-- A concrete single-vertex example shape. -/
def egA : Geometry := Geometry.polygon [[(0, 0)]]

/-- A second concrete single-vertex example shape. -/
def egB : Geometry := Geometry.polygon [[(10, 0)]]

/-- A third concrete single-vertex example shape. -/
def egC : Geometry := Geometry.polygon [[(0, 7)]]

/-- C3: for every single-shape input the merge operation returns the input
shape unchanged (value equality) together with empty `pairs`, `mstEdges`
and `corridorPolygons` debug collections; no graph, MST or corridor
computation is performed. -/
theorem c3_single_shape (G : GeoLib) (f : Geometry) (cf : Option ℚ) :
    mergePolygonsWithShortestCorridors G [f] cf = Except.ok (f, ⟨[], [], []⟩) := rfl

/-- C10: for the empty input sequence the merge operation falls through the
`n = 1` short-circuit, performs no pair, MST or corridor work, and throws
the union-failure error, because the fold over the empty piece list leaves
the accumulator unset. -/
theorem c10_empty_input (G : GeoLib) (cf : Option ℚ) :
    mergePolygonsWithShortestCorridors G [] cf = Except.error "Union failed" := by
  rw [merge_unfold (by simp)]
  have h1 : buildEdges G [] = [] := rfl
  rw [h1]
  have h2 : sortEdges ([] : List Edge) = [] := by simp [sortEdges]
  rw [h2]
  rfl

/-- C8: the merger computes the output by a sequential left fold in input
order — the first piece seeds the accumulator and every subsequent piece is
unioned into it — and for n ≥ 2 the union-failure branch is unreachable:
the merge returns a value obtained by folding all remaining original
polygons and corridors into the first original polygon. -/
theorem c8_merger_fold (G : GeoLib) (features : List Geometry) (cf : Option ℚ)
    (hn : 2 ≤ features.length) :
    (∀ (p : Geometry) (rest : List Geometry),
      mergePieces G (p :: rest) = some (rest.foldl G.gunion p)) ∧
    (∃ out dbg, mergePolygonsWithShortestCorridors G features cf = Except.ok (out, dbg) ∧
      ∀ f0 featRest, features = f0 :: featRest →
        out = (featRest ++ dbg.corridorPolygons).foldl G.gunion f0) := by
  refine ⟨fun p rest => mergePieces_cons G p rest, ?_⟩
  rw [merge_unfold (by omega)]
  obtain ⟨f0, featRest, rfl⟩ : ∃ f0 fr, features = f0 :: fr := by
    cases features with
    | nil => simp at hn
    | cons f0 fr => exact ⟨f0, fr, rfl⟩
  rw [List.cons_append, mergePieces_cons]
  refine ⟨_, _, rfl, ?_⟩
  intro g0 gr heq
  injection heq with h1 h2
  subst h1
  subst h2
  rfl

/-- Witness for C8 at a concrete two-shape input. -/
theorem c8_witness :
    2 ≤ ([egA, egB] : List Geometry).length ∧
    ((∀ (p : Geometry) (rest : List Geometry),
      mergePieces egLib (p :: rest) = some (rest.foldl egLib.gunion p)) ∧
     (∃ out dbg, mergePolygonsWithShortestCorridors egLib [egA, egB] none =
        Except.ok (out, dbg) ∧
      ∀ f0 featRest, ([egA, egB] : List Geometry) = f0 :: featRest →
        out = (featRest ++ dbg.corridorPolygons).foldl egLib.gunion f0)) :=
  ⟨by decide, c8_merger_fold egLib [egA, egB] none (by decide)⟩

/-- C6: the corridor half-width equals bounding-box diagonal × 0.02 ×
corridorFactor, with factor defaulting to 1 when absent and 1 km
substituted for a zero diagonal; doubling the factor doubles the width;
and every MST segment is buffered with exactly this width. -/
theorem c6_corridor_width (G : GeoLib) (features : List Geometry) :
    (∀ d f, d ≠ 0 → corridorWidthKm d (some f) = d * (2 / 100) * f) ∧
    (∀ f, corridorWidthKm 0 (some f) = 1 * (2 / 100) * f) ∧
    (∀ d, corridorWidthKm d none = corridorWidthKm d (some 1)) ∧
    (∀ d f, corridorWidthKm d (some (2 * f)) = 2 * corridorWidthKm d (some f)) ∧
    (∀ cf out dbg, 2 ≤ features.length →
      mergePolygonsWithShortestCorridors G features cf = Except.ok (out, dbg) →
      dbg.corridorPolygons = dbg.mstEdges.map (fun e => G.buffer e.seg
        (corridorWidthKm (bboxDiagonalKm G (G.bbox features)) cf))) := by
  refine ⟨?_, ?_, ?_, ?_, ?_⟩
  · intro d f hd
    simp [corridorWidthKm, hd]
  · intro f
    simp [corridorWidthKm]
  · intro d
    simp [corridorWidthKm]
  · intro d f
    simp only [corridorWidthKm, Option.getD_some]
    ring
  · intro cf out dbg hn hmerge
    obtain ⟨hdbg, _⟩ := merge_ok_inv (by omega) hmerge
    subst hdbg
    rfl

/-- Witness for C6 at concrete inputs. -/
theorem c6_witness :
    (5 : ℚ) ≠ 0 ∧ corridorWidthKm 5 (some 3) = 5 * (2 / 100) * 3 ∧
    corridorWidthKm 0 (some 3) = 1 * (2 / 100) * 3 ∧
    corridorWidthKm 5 none = corridorWidthKm 5 (some 1) ∧
    corridorWidthKm 5 (some (2 * 3)) = 2 * corridorWidthKm 5 (some 3) ∧
    (2 ≤ ([egA, egB] : List Geometry).length ∧
     ∀ out dbg, mergePolygonsWithShortestCorridors egLib [egA, egB] none =
        Except.ok (out, dbg) →
      dbg.corridorPolygons = dbg.mstEdges.map (fun e => egLib.buffer e.seg
        (corridorWidthKm (bboxDiagonalKm egLib (egLib.bbox [egA, egB])) none))) :=
  ⟨by decide,
   (c6_corridor_width egLib [egA, egB]).1 5 3 (by decide),
   (c6_corridor_width egLib [egA, egB]).2.1 3,
   (c6_corridor_width egLib [egA, egB]).2.2.1 5,
   (c6_corridor_width egLib [egA, egB]).2.2.2.1 5 3,
   by decide,
   fun out dbg h => (c6_corridor_width egLib [egA, egB]).2.2.2.2 none out dbg (by decide) h⟩

/-- C5: for n ≥ 2 shapes the connection graph builder produces exactly
C(n,2) edges — one per unordered index pair with `a < b` — each carrying
the connector finder's segment and its length as the distance, and the
edge list returned as `debug.pairs` is sorted ascending by distance. -/
theorem c5_graph_builder (G : GeoLib) (features : List Geometry)
    (hn : 2 ≤ features.length) :
    (sortEdges (buildEdges G features)).length =
      features.length * (features.length - 1) / 2 ∧
    List.Perm (pairsE (sortEdges (buildEdges G features))) (allPairs features.length) ∧
    (∀ e, e ∈ sortEdges (buildEdges G features) →
      e.a < e.b ∧ e.b < features.length ∧
      e.seg = shortestSegmentBetween G (features.getD e.a default)
        (features.getD e.b default) ∧
      e.distance = pathLength G e.seg) ∧
    List.Pairwise (fun x y : Edge => x.distance ≤ y.distance)
      (sortEdges (buildEdges G features)) ∧
    (∀ cf out dbg, mergePolygonsWithShortestCorridors G features cf = Except.ok (out, dbg) →
      dbg.pairs = sortEdges (buildEdges G features)) := by
  refine ⟨?_, ?_, ?_, sortEdges_sorted _, ?_⟩
  · rw [(sortEdges_perm _).length_eq]
    exact buildEdges_length G features
  · rw [← pairsE_buildEdges G features]
    exact List.Perm.map _ (sortEdges_perm _)
  · intro e he
    exact buildEdges_mem.mp (((sortEdges_perm _).mem_iff).mp he)
  · intro cf out dbg hmerge
    rw [(merge_ok_inv (by omega) hmerge).1]

/-- Witness for C5 at a concrete two-shape input. -/
theorem c5_witness :
    2 ≤ ([egA, egB] : List Geometry).length ∧
    ((sortEdges (buildEdges egLib [egA, egB])).length = 2 * (2 - 1) / 2 ∧
     List.Perm (pairsE (sortEdges (buildEdges egLib [egA, egB]))) (allPairs 2) ∧
     (∀ e, e ∈ sortEdges (buildEdges egLib [egA, egB]) →
       e.a < e.b ∧ e.b < 2 ∧
       e.seg = shortestSegmentBetween egLib (([egA, egB] : List Geometry).getD e.a default)
         (([egA, egB] : List Geometry).getD e.b default) ∧
       e.distance = pathLength egLib e.seg) ∧
     List.Pairwise (fun x y : Edge => x.distance ≤ y.distance)
       (sortEdges (buildEdges egLib [egA, egB])) ∧
     (∀ cf out dbg, mergePolygonsWithShortestCorridors egLib [egA, egB] cf =
        Except.ok (out, dbg) →
       dbg.pairs = sortEdges (buildEdges egLib [egA, egB]))) :=
  ⟨by decide, c5_graph_builder egLib [egA, egB] (by decide)⟩

/-- C1: for every input of n ≥ 2 shapes the Kruskal step accepts exactly
n − 1 edges (the debug `mstEdges` list has length n − 1) and afterwards the
disjoint-set structure reports a single set: all indices have the same
`find` representative. -/
theorem c1_mst_count_and_connected (G : GeoLib) (features : List Geometry)
    (hn : 2 ≤ features.length) :
    ((kruskalLoop features.length (sortEdges (buildEdges G features))
        (UnionFind.init features.length) []).2.length = features.length - 1) ∧
    (∀ i j, i < features.length → j < features.length →
      ((kruskalLoop features.length (sortEdges (buildEdges G features))
          (UnionFind.init features.length) []).1.find i).2 =
      ((kruskalLoop features.length (sortEdges (buildEdges G features))
          (UnionFind.init features.length) []).1.find j).2) ∧
    (∀ cf out dbg, mergePolygonsWithShortestCorridors G features cf = Except.ok (out, dbg) →
      dbg.mstEdges = (kruskalLoop features.length (sortEdges (buildEdges G features))
        (UnionFind.init features.length) []).2) := by
  have hmemS : ∀ e, e ∈ sortEdges (buildEdges G features) →
      e.a < features.length ∧ e.b < features.length := by
    intro e he
    obtain ⟨h1, h2, _, _⟩ := buildEdges_mem.mp (((sortEdges_perm _).mem_iff).mp he)
    exact ⟨by omega, h2⟩
  have hcomp : ∀ i j, i < j → j < features.length →
      ∃ e, e ∈ sortEdges (buildEdges G features) ∧ e.a = i ∧ e.b = j := by
    intro i j hij hj
    refine ⟨⟨i, j,
      pathLength G (shortestSegmentBetween G (features.getD i default)
        (features.getD j default)),
      shortestSegmentBetween G (features.getD i default) (features.getD j default)⟩,
      ?_, rfl, rfl⟩
    rw [(sortEdges_perm _).mem_iff]
    exact buildEdges_mem.mpr ⟨hij, hj, rfl, rfl⟩
  obtain ⟨K2, hGr, hval, ⟨hufinv, hiff, hcount⟩, hlen, hspan⟩ :=
    kruskal_final hn hmemS hcomp
  refine ⟨?_, ?_, ?_⟩
  · rw [hval]
    simpa using hlen
  · intro i j hi hj
    have hroot := (hiff i j hi hj).mpr (hspan i j hi hj)
    obtain ⟨hcval1, _, _, _⟩ := UnionFind.find_spec hufinv hi
    obtain ⟨hcval2, _, _, _⟩ := UnionFind.find_spec hufinv hj
    rw [hcval1, hcval2, hroot]
  · intro cf out dbg hmerge
    rw [(merge_ok_inv (by omega) hmerge).1]

/-- Witness for C1 at a concrete two-shape input. -/
theorem c1_witness :
    2 ≤ ([egA, egB] : List Geometry).length ∧
    (((kruskalLoop 2 (sortEdges (buildEdges egLib [egA, egB]))
        (UnionFind.init 2) []).2.length = 2 - 1) ∧
     (∀ i j, i < 2 → j < 2 →
       ((kruskalLoop 2 (sortEdges (buildEdges egLib [egA, egB]))
           (UnionFind.init 2) []).1.find i).2 =
       ((kruskalLoop 2 (sortEdges (buildEdges egLib [egA, egB]))
           (UnionFind.init 2) []).1.find j).2) ∧
     (∀ cf out dbg, mergePolygonsWithShortestCorridors egLib [egA, egB] cf =
        Except.ok (out, dbg) →
       dbg.mstEdges = (kruskalLoop 2 (sortEdges (buildEdges egLib [egA, egB]))
         (UnionFind.init 2) []).2)) :=
  ⟨by decide, c1_mst_count_and_connected egLib [egA, egB] (by decide)⟩

/-- C9: throughout the Kruskal scan the disjoint-set invariant holds — after
processing any prefix of the sorted edge list, two indices have equal find
representatives iff they are connected, directly or transitively, by the MST
edges accepted so far; moreover `find` never changes the partition, and
`union` merges exactly the classes of its two arguments. -/
theorem c9_uf_invariant (G : GeoLib) (features : List Geometry) :
    (∀ pre suf, sortEdges (buildEdges G features) = pre ++ suf →
      ∀ i j, i < features.length → j < features.length →
        ((((kruskalLoop features.length pre
            (UnionFind.init features.length) []).1.find i).2 =
          ((kruskalLoop features.length pre
            (UnionFind.init features.length) []).1.find j).2 ↔
         Conn (pairsM (kruskalLoop features.length pre
            (UnionFind.init features.length) []).2) i j))) ∧
    (∀ n uf, UFinv n uf → ∀ z, z < n → ∀ y,
      ((uf.find z).1.rootOf y = uf.rootOf y)) ∧
    (∀ n uf, UFinv n uf → ∀ a b, a < n → b < n → ∀ x y,
      ((uf.union a b).rootOf x = (uf.union a b).rootOf y ↔
        (uf.rootOf x = uf.rootOf y ∨
         (uf.rootOf x = uf.rootOf a ∧ uf.rootOf b = uf.rootOf y) ∨
         (uf.rootOf x = uf.rootOf b ∧ uf.rootOf a = uf.rootOf y)))) := by
  refine ⟨?_, ?_, ?_⟩
  · intro pre suf hdec i j hi hj
    have hmemP : ∀ e, e ∈ pre → e.a < features.length ∧ e.b < features.length := by
      intro e he
      have heS : e ∈ sortEdges (buildEdges G features) := by
        rw [hdec]
        exact List.mem_append_left _ he
      obtain ⟨h1, h2, _, _⟩ := buildEdges_mem.mp (((sortEdges_perm _).mem_iff).mp heS)
      exact ⟨by omega, h2⟩
    have hinit : KruskalInv features.length (UnionFind.init features.length) [] := by
      refine ⟨UFinv_init _, ?_, ?_⟩
      · intro x y hx hy
        rw [UnionFind.rootOf_init, UnionFind.rootOf_init]
        constructor
        · intro hxy
          subst hxy
          exact Conn.refl x
        · intro hc
          exact Conn.nil_eq (by simpa [pairsE] using hc)
      · rw [cardClasses_init]
        simp
    have hrun := kruskal_run features.length pre [] (UnionFind.init features.length)
      hinit hmemP
    simp only [List.map_nil] at hrun
    obtain ⟨K2, hGr, hval, ⟨hufinv, hiff, hcount⟩⟩ := hrun
    obtain ⟨hf1, _, _, _⟩ := UnionFind.find_spec hufinv hi
    obtain ⟨hf2, _, _, _⟩ := UnionFind.find_spec hufinv hj
    rw [hf1, hf2, hval, pairsM_map_toMst]
    exact hiff i j hi hj
  · intro n uf hinv z hz y
    obtain ⟨_, _, _, hroots⟩ := UnionFind.find_spec hinv hz
    exact hroots y
  · intro n uf hinv a b ha hb x y
    obtain ⟨_, w, hw, hchar⟩ := UnionFind.union_spec hinv ha hb
    rw [hchar x, hchar y]
    exact collapse_eq_iff hw

/-- Witness for C9 at concrete inputs. -/
theorem c9_witness :
    ((sortEdges (buildEdges egLib [egA, egB]) =
        sortEdges (buildEdges egLib [egA, egB]) ++ [] ∧ (0 : ℕ) < 2 ∧ (1 : ℕ) < 2) ∧
     (((kruskalLoop 2 (sortEdges (buildEdges egLib [egA, egB]))
         (UnionFind.init 2) []).1.find 0).2 =
       ((kruskalLoop 2 (sortEdges (buildEdges egLib [egA, egB]))
         (UnionFind.init 2) []).1.find 1).2 ↔
      Conn (pairsM (kruskalLoop 2 (sortEdges (buildEdges egLib [egA, egB]))
         (UnionFind.init 2) []).2) 0 1)) ∧
    (UFinv 2 (UnionFind.init 2) ∧
     ∀ y, (((UnionFind.init 2).find 0).1.rootOf y = (UnionFind.init 2).rootOf y)) ∧
    (((UnionFind.init 2).union 0 1).rootOf 0 = ((UnionFind.init 2).union 0 1).rootOf 1 ↔
      ((UnionFind.init 2).rootOf 0 = (UnionFind.init 2).rootOf 1 ∨
       ((UnionFind.init 2).rootOf 0 = (UnionFind.init 2).rootOf 0 ∧
        (UnionFind.init 2).rootOf 1 = (UnionFind.init 2).rootOf 1) ∨
       ((UnionFind.init 2).rootOf 0 = (UnionFind.init 2).rootOf 1 ∧
        (UnionFind.init 2).rootOf 0 = (UnionFind.init 2).rootOf 1))) :=
  ⟨⟨⟨(List.append_nil _).symm, by decide, by decide⟩,
    (c9_uf_invariant egLib [egA, egB]).1 (sortEdges (buildEdges egLib [egA, egB])) []
      (List.append_nil _).symm 0 1 (by decide) (by decide)⟩,
   ⟨UFinv_init 2,
    (c9_uf_invariant egLib [egA, egB]).2.1 2 (UnionFind.init 2) (UFinv_init 2) 0
      (by decide)⟩,
   (c9_uf_invariant egLib [egA, egB]).2.2 2 (UnionFind.init 2) (UFinv_init 2) 0 1
     (by decide) (by decide) 0 1⟩

/-! ### C7: the boundary sampler -/

theorem range_filter_ge_one (k : ℕ) :
    (List.range k).filter (fun s => 1 ≤ s) = List.range' 1 (k - 1) := by
  cases k with
  | zero => rfl
  | succ m =>
    rw [List.range_eq_range']
    have hsplit : List.range' 0 (m + 1) = 0 :: List.range' 1 m := by
      rw [List.range'_succ]
    rw [hsplit]
    have h0 : (fun s => decide (1 ≤ s)) 0 = false := by decide
    rw [List.filter_cons_of_neg (by simpa using h0)]
    have hall : ∀ x ∈ List.range' 1 m, (fun s => decide (1 ≤ s)) x = true := by
      intro x hx
      have := (List.mem_range'_1.mp hx).1
      simpa using this
    rw [List.filter_eq_self.mpr hall]
    simp

theorem sRange_eq (q : ℚ) : sRange q = List.range' 1 (⌈q⌉₊ - 1) := by
  unfold sRange
  exact range_filter_ge_one _

/-- The boundary sampling behaviour as amended: every vertex of every outer
(first) ring is emitted, and between each consecutive vertex pair exactly
`⌈target/(L-1)⌉ - 1` uniformly spaced interior points (at parameters
`s/⌈target/(L-1)⌉`, `s = 1, …, ⌈target/(L-1)⌉ - 1`) are inserted, where `L`
is the ring's vertex count; inner rings contribute nothing. -/
def samplePerimeterSpec (p : Geometry) (targetPerRing : ℕ) : List Pos :=
  let polys := match p with
    | .polygon cs => [cs]
    | .multiPolygon cs => cs
  polys.flatMap (fun poly =>
    match poly with
    | [] => []
    | ring :: _ =>
      ring ++ (List.range (ring.length - 1)).flatMap (fun i =>
        let a := ring.getD i (0, 0)
        let b := ring.getD (i + 1) (0, 0)
        let q : ℚ := (targetPerRing : ℚ) / ((ring.length : ℚ) - 1)
        (List.range' 1 (⌈q⌉₊ - 1)).map (fun (s : ℕ) =>
          let t : ℚ := (s : ℚ) / ((⌈q⌉₊ : ℕ) : ℚ)
          (a.1 + (b.1 - a.1) * t, a.2 + (b.2 - a.2) * t))))

/-- A concrete square ring with 5 stored vertices (closing vertex repeated). -/
def cexRing : List Pos := [(0, 0), (1, 0), (1, 1), (0, 1), (0, 0)]

/-- A concrete polygon used to refute the claimed sample count. -/
def cexPoly : Geometry := Geometry.polygon [cexRing]

/-- Counterexample to C7 as stated: on a ring with 5 stored vertices and
target 24, the claimed insertion count per edge is `⌈24/(5-1)⌉ = 6`, which
would give `5 + 4·6 = 29` samples, but the loop `for (s = 1; s < 24/4; s++)`
inserts only 5 points per edge, 25 samples in total. -/
theorem sum_map_const_range (k c : ℕ) : ((List.range k).map (fun _ => c)).sum = k * c := by
  induction k with
  | zero => simp
  | succ m ih =>
    rw [List.range_succ]
    simp [ih]
    ring

theorem length_flatMap_const {β : Type} (k c : ℕ) (f : ℕ → List β)
    (hf : ∀ i, (f i).length = c) :
    ((List.range k).flatMap f).length = k * c := by
  rw [List.length_flatMap]
  have h1 : List.map (List.length ∘ f) (List.range k) =
      (List.range k).map (fun _ => c) := by
    apply List.map_congr_left
    intro i _
    exact hf i
  rw [h1, sum_map_const_range]

theorem sample_length_single_ring (ring : List Pos) (target : ℕ) :
    (samplePerimeterPoints (Geometry.polygon [ring]) target).length =
      ring.length + (ring.length - 1) *
        (⌈(target : ℚ) / ((ring.length : ℚ) - 1)⌉₊ - 1) := by
  cases ring with
  | nil =>
    have h : (samplePerimeterPoints (Geometry.polygon [[]]) target).length = 0 := rfl
    rw [h]
    simp
  | cons p0 rest =>
    unfold samplePerimeterPoints
    simp only [sRange_eq, List.flatMap_cons, List.flatMap_nil, List.append_nil,
      List.length_append]
    congr 1
    apply length_flatMap_const
    intro i
    simp

/-- Counterexample to C7 as stated: on a ring with 5 stored vertices and
target 24, the claimed insertion count per edge is `⌈24/(5-1)⌉ = 6`, which
would give `5 + 4·6 = 29` samples, but the loop `for (s = 1; s < 24/4; s++)`
inserts only 5 points per edge, 25 samples in total. -/
theorem c7_counterexample :
    (samplePerimeterPoints cexPoly 24).length = 25 ∧
    cexRing.length + (cexRing.length - 1) * ⌈(24 : ℚ) / ((cexRing.length : ℚ) - 1)⌉₊ = 29 ∧
    (25 : ℕ) ≠ 29 := by
  have hlen5 : cexRing.length = 5 := rfl
  refine ⟨?_, ?_, by decide⟩
  · have h := sample_length_single_ring cexRing 24
    rw [show Geometry.polygon [cexRing] = cexPoly from rfl] at h
    rw [h, hlen5]
    norm_num
  · rw [hlen5]
    norm_num

/-- C7 (amended): the sampler emits every vertex of every outer (first)
ring and inserts `⌈target/(ringVertexCount−1)⌉ − 1` uniformly spaced
interior points between each consecutive vertex pair; inner (hole) rings
contribute no samples, and a shape with no rings yields an empty
sequence. -/
theorem c7_sampler_amended :
    (∀ p target, samplePerimeterPoints p target = samplePerimeterSpec p target) ∧
    (∀ target, samplePerimeterPoints (Geometry.polygon []) target = [] ∧
      samplePerimeterPoints (Geometry.multiPolygon []) target = []) ∧
    (∀ ring holes target,
      samplePerimeterPoints (Geometry.polygon (ring :: holes)) target =
      samplePerimeterPoints (Geometry.polygon [ring]) target) := by
  refine ⟨?_, ?_, ?_⟩
  · intro p target
    unfold samplePerimeterPoints samplePerimeterSpec
    simp only [sRange_eq]
  · intro target
    exact ⟨rfl, rfl⟩
  · intro ring holes target
    rfl

/-! ### C4: the pairwise connector -/

/-- One step of the all-pairs minimum scan: keep the previous best unless
the new pair is strictly closer. -/
def bpStep (G : GeoLib) (best : Option (Pos × Pos × ℚ)) (q : Pos × Pos) :
    Option (Pos × Pos × ℚ) :=
  match best with
  | none => some (q.1, q.2, G.dist q.1 q.2)
  | some b => if G.dist q.1 q.2 < b.2.2 then some (q.1, q.2, G.dist q.1 q.2) else best

/-- The pair visiting order of the two nested sample loops. -/
def pairScan (sa sb : List Pos) : List (Pos × Pos) :=
  sa.flatMap (fun pa => sb.map (fun pb => (pa, pb)))

theorem bestPair_eq_foldl (G : GeoLib) (sa sb : List Pos) :
    bestPair G sa sb = (pairScan sa sb).foldl (bpStep G) none := by
  have hinner : ∀ (pa : Pos) (l : List Pos) (init : Option (Pos × Pos × ℚ)),
      l.foldl (fun best pb =>
        let d := G.dist pa pb
        match best with
        | none => some (pa, pb, d)
        | some b => if d < b.2.2 then some (pa, pb, d) else best) init =
      (l.map (fun pb => (pa, pb))).foldl (bpStep G) init := by
    intro pa l
    induction l with
    | nil => intro init; rfl
    | cons pb l ih =>
      intro init
      simp only [List.map_cons, List.foldl_cons]
      rw [ih]
      rfl
  have houter : ∀ (l : List Pos) (init : Option (Pos × Pos × ℚ)),
      l.foldl (fun best pa =>
        sb.foldl (fun best pb =>
          let d := G.dist pa pb
          match best with
          | none => some (pa, pb, d)
          | some b => if d < b.2.2 then some (pa, pb, d) else best) best) init =
      (l.flatMap (fun pa => sb.map (fun pb => (pa, pb)))).foldl (bpStep G) init := by
    intro l
    induction l with
    | nil => intro init; rfl
    | cons pa l ih =>
      intro init
      simp only [List.flatMap_cons, List.foldl_cons, List.foldl_append]
      rw [ih, hinner]
  exact houter sa none

/-- The first pair attaining the running minimum: the fold's best value. -/
def firstMinPair (G : GeoLib) : Pos × Pos → List (Pos × Pos) → Pos × Pos
  | p, [] => p
  | p, q :: L =>
    if G.dist q.1 q.2 < G.dist p.1 p.2 then firstMinPair G q L else firstMinPair G p L

theorem foldl_bpStep_some (G : GeoLib) :
    ∀ (L : List (Pos × Pos)) (p : Pos × Pos),
      L.foldl (bpStep G) (some (p.1, p.2, G.dist p.1 p.2)) =
        some ((firstMinPair G p L).1, (firstMinPair G p L).2,
          G.dist (firstMinPair G p L).1 (firstMinPair G p L).2) := by
  intro L
  induction L with
  | nil => intro p; rfl
  | cons q L ih =>
    intro p
    by_cases h : G.dist q.1 q.2 < G.dist p.1 p.2
    · have hfm : firstMinPair G p (q :: L) = firstMinPair G q L := by
        simp [firstMinPair, h]
      have hstep : bpStep G (some (p.1, p.2, G.dist p.1 p.2)) q =
          some (q.1, q.2, G.dist q.1 q.2) := by
        simp [bpStep, h]
      rw [List.foldl_cons, hfm, hstep]
      exact ih q
    · have hfm : firstMinPair G p (q :: L) = firstMinPair G p L := by
        simp [firstMinPair, h]
      have hstep : bpStep G (some (p.1, p.2, G.dist p.1 p.2)) q =
          some (p.1, p.2, G.dist p.1 p.2) := by
        simp [bpStep, h]
      rw [List.foldl_cons, hfm, hstep]
      exact ih p

theorem firstMinPair_min (G : GeoLib) :
    ∀ (L : List (Pos × Pos)) (p : Pos × Pos),
      (firstMinPair G p L = p ∨ firstMinPair G p L ∈ L) ∧
      G.dist (firstMinPair G p L).1 (firstMinPair G p L).2 ≤ G.dist p.1 p.2 ∧
      ∀ r ∈ L, G.dist (firstMinPair G p L).1 (firstMinPair G p L).2 ≤ G.dist r.1 r.2 := by
  intro L
  induction L with
  | nil => intro p; exact ⟨Or.inl rfl, le_refl _, by simp⟩
  | cons q L ih =>
    intro p
    by_cases h : G.dist q.1 q.2 < G.dist p.1 p.2
    · have hfm : firstMinPair G p (q :: L) = firstMinPair G q L := by
        simp [firstMinPair, h]
      rw [hfm]
      obtain ⟨hmem, hle, hall⟩ := ih q
      refine ⟨?_, le_trans hle (le_of_lt h), ?_⟩
      · rcases hmem with h1 | h1
        · exact Or.inr (by rw [h1]; exact List.mem_cons_self q L)
        · exact Or.inr (List.mem_cons_of_mem q h1)
      · intro r hr
        rcases List.mem_cons.mp hr with hrq | hrL
        · subst hrq
          exact hle
        · exact hall r hrL
    · have hfm : firstMinPair G p (q :: L) = firstMinPair G p L := by
        simp [firstMinPair, h]
      rw [hfm]
      obtain ⟨hmem, hle, hall⟩ := ih p
      refine ⟨?_, hle, ?_⟩
      · rcases hmem with h1 | h1
        · exact Or.inl h1
        · exact Or.inr (List.mem_cons_of_mem q h1)
      · intro r hr
        rcases List.mem_cons.mp hr with hrq | hrL
        · subst hrq
          exact le_trans hle (le_of_not_lt h)
        · exact hall r hrL

theorem firstMinPair_first (G : GeoLib) :
    ∀ (L : List (Pos × Pos)) (p : Pos × Pos),
      ∃ pre post, p :: L = pre ++ firstMinPair G p L :: post ∧
        ∀ r ∈ pre, G.dist (firstMinPair G p L).1 (firstMinPair G p L).2 <
          G.dist r.1 r.2 := by
  intro L
  induction L with
  | nil => intro p; exact ⟨[], [], rfl, by simp⟩
  | cons q L ih =>
    intro p
    by_cases h : G.dist q.1 q.2 < G.dist p.1 p.2
    · have hfm : firstMinPair G p (q :: L) = firstMinPair G q L := by
        simp [firstMinPair, h]
      rw [hfm]
      obtain ⟨pre, post, hdec, hstrict⟩ := ih q
      refine ⟨p :: pre, post, by rw [List.cons_append, ← hdec], ?_⟩
      intro r hr
      rcases List.mem_cons.mp hr with hrp | hrpre
      · subst hrp
        exact lt_of_le_of_lt (firstMinPair_min G L q).2.1 h
      · exact hstrict r hrpre
    · have hfm : firstMinPair G p (q :: L) = firstMinPair G p L := by
        simp [firstMinPair, h]
      rw [hfm]
      obtain ⟨pre, post, hdec, hstrict⟩ := ih p
      cases pre with
      | nil =>
        simp only [List.nil_append] at hdec
        have hp : p = firstMinPair G p L := ((List.cons.injEq ..).mp hdec).1
        have hL : L = post := ((List.cons.injEq ..).mp hdec).2
        refine ⟨[], q :: post, ?_, by simp⟩
        rw [List.nil_append, ← hp, ← hL]
      | cons p0 pre' =>
        have h2 : p :: L = p0 :: (pre' ++ firstMinPair G p L :: post) := by
          simpa using hdec
        have hp0 : p = p0 := ((List.cons.injEq ..).mp h2).1
        have hL : L = pre' ++ firstMinPair G p L :: post :=
          ((List.cons.injEq ..).mp h2).2
        refine ⟨p :: q :: pre', post, ?_, ?_⟩
        · rw [List.cons_append, List.cons_append, ← hL]
        · intro r hr
          rcases List.mem_cons.mp hr with hrp | hr2
          · subst hrp
            exact hstrict r (by rw [hp0]; exact List.mem_cons_self p0 pre')
          · rcases List.mem_cons.mp hr2 with hrq | hrpre
            · subst hrq
              have h3 := hstrict p (by rw [hp0]; exact List.mem_cons_self p0 pre')
              exact lt_of_lt_of_le h3 (le_of_not_lt h)
            · exact hstrict r (List.mem_cons_of_mem p0 hrpre)

theorem mem_pairScan {sa sb : List Pos} {pa pb : Pos} :
    (pa, pb) ∈ pairScan sa sb ↔ pa ∈ sa ∧ pb ∈ sb := by
  simp [pairScan]

theorem pairScan_eq_nil {sa sb : List Pos} :
    pairScan sa sb = [] ↔ sa = [] ∨ sb = [] := by
  cases sa with
  | nil => simp [pairScan]
  | cons pa sa =>
    cases sb with
    | nil => simp [pairScan]
    | cons pb sb => simp [pairScan]

theorem shortestSegmentBetween_eq (G : GeoLib) (a b : Geometry) :
    shortestSegmentBetween G a b =
      match bestPair G (samplePerimeterPoints a 24) (samplePerimeterPoints b 24) with
      | none => [G.centroid a, G.centroid b]
      | some best => [best.1, best.2.1] := rfl

/-- C4: for every pair of shapes whose sample sets are both non-empty, the
connector returns the segment joining a sampled pair of minimum distance
over all pairs, the first minimum encountered in scan order winning ties;
if either sample set is empty it connects the two centroids instead; in all
cases the result is a two-point segment. -/
theorem c4_shortest_segment (G : GeoLib) (a b : Geometry) :
    (samplePerimeterPoints a 24 ≠ [] → samplePerimeterPoints b 24 ≠ [] →
      ∃ pa pb, pa ∈ samplePerimeterPoints a 24 ∧ pb ∈ samplePerimeterPoints b 24 ∧
        shortestSegmentBetween G a b = [pa, pb] ∧
        (∀ qa ∈ samplePerimeterPoints a 24, ∀ qb ∈ samplePerimeterPoints b 24,
          G.dist pa pb ≤ G.dist qa qb) ∧
        (∃ pre post,
          pairScan (samplePerimeterPoints a 24) (samplePerimeterPoints b 24) =
            pre ++ (pa, pb) :: post ∧
          ∀ r ∈ pre, G.dist pa pb < G.dist r.1 r.2)) ∧
    ((samplePerimeterPoints a 24 = [] ∨ samplePerimeterPoints b 24 = []) →
      shortestSegmentBetween G a b = [G.centroid a, G.centroid b]) ∧
    (shortestSegmentBetween G a b).length = 2 := by
  refine ⟨?_, ?_, ?_⟩
  · intro hsa hsb
    rcases hscan : pairScan (samplePerimeterPoints a 24) (samplePerimeterPoints b 24) with
      _ | ⟨q0, L⟩
    · rcases pairScan_eq_nil.mp hscan with h | h
      · exact absurd h hsa
      · exact absurd h hsb
    · have hbp : bestPair G (samplePerimeterPoints a 24) (samplePerimeterPoints b 24) =
          some ((firstMinPair G q0 L).1, (firstMinPair G q0 L).2,
            G.dist (firstMinPair G q0 L).1 (firstMinPair G q0 L).2) := by
        rw [bestPair_eq_foldl, hscan, List.foldl_cons]
        have hstep : bpStep G none q0 = some (q0.1, q0.2, G.dist q0.1 q0.2) := rfl
        rw [hstep]
        exact foldl_bpStep_some G L q0
      refine ⟨(firstMinPair G q0 L).1, (firstMinPair G q0 L).2, ?_, ?_, ?_, ?_, ?_⟩
      · have hmemscan : firstMinPair G q0 L ∈ q0 :: L := by
          rcases (firstMinPair_min G L q0).1 with h1 | h1
          · rw [h1]; exact List.mem_cons_self q0 L
          · exact List.mem_cons_of_mem q0 h1
        rw [← hscan] at hmemscan
        exact (mem_pairScan.mp hmemscan).1
      · have hmemscan : firstMinPair G q0 L ∈ q0 :: L := by
          rcases (firstMinPair_min G L q0).1 with h1 | h1
          · rw [h1]; exact List.mem_cons_self q0 L
          · exact List.mem_cons_of_mem q0 h1
        rw [← hscan] at hmemscan
        exact (mem_pairScan.mp hmemscan).2
      · rw [shortestSegmentBetween_eq, hbp]
      · intro qa hqa qb hqb
        have hmem2 : (qa, qb) ∈ q0 :: L := by
          rw [← hscan]
          exact mem_pairScan.mpr ⟨hqa, hqb⟩
        rcases List.mem_cons.mp hmem2 with h1 | h1
        · have h2 : G.dist qa qb = G.dist q0.1 q0.2 := by rw [← h1]
          rw [h2]
          exact (firstMinPair_min G L q0).2.1
        · exact (firstMinPair_min G L q0).2.2 (qa, qb) h1
      · obtain ⟨pre, post, hdec, hstrict⟩ := firstMinPair_first G L q0
        refine ⟨pre, post, ?_, hstrict⟩
        exact hdec
  · intro hemp
    have hscan : pairScan (samplePerimeterPoints a 24) (samplePerimeterPoints b 24) = [] :=
      pairScan_eq_nil.mpr hemp
    have hbp : bestPair G (samplePerimeterPoints a 24) (samplePerimeterPoints b 24) =
        none := by
      rw [bestPair_eq_foldl, hscan]
      rfl
    rw [shortestSegmentBetween_eq, hbp]
  · rw [shortestSegmentBetween_eq]
    rcases bestPair G (samplePerimeterPoints a 24) (samplePerimeterPoints b 24) with
      _ | best
    · rfl
    · rfl

/-- Witness for C4: a non-empty-samples pair and an empty-samples pair. -/
theorem c4_witness :
    (samplePerimeterPoints egA 24 ≠ [] ∧ samplePerimeterPoints egB 24 ≠ [] ∧
     (∃ pa pb, pa ∈ samplePerimeterPoints egA 24 ∧ pb ∈ samplePerimeterPoints egB 24 ∧
        shortestSegmentBetween egLib egA egB = [pa, pb] ∧
        (∀ qa ∈ samplePerimeterPoints egA 24, ∀ qb ∈ samplePerimeterPoints egB 24,
          egLib.dist pa pb ≤ egLib.dist qa qb) ∧
        (∃ pre post,
          pairScan (samplePerimeterPoints egA 24) (samplePerimeterPoints egB 24) =
            pre ++ (pa, pb) :: post ∧
          ∀ r ∈ pre, egLib.dist pa pb < egLib.dist r.1 r.2))) ∧
    ((samplePerimeterPoints (Geometry.polygon []) 24 = [] ∨
      samplePerimeterPoints egB 24 = []) ∧
     shortestSegmentBetween egLib (Geometry.polygon []) egB =
       [egLib.centroid (Geometry.polygon []), egLib.centroid egB]) :=
  ⟨⟨by decide, by decide,
    (c4_shortest_segment egLib egA egB).1 (by decide) (by decide)⟩,
   ⟨Or.inl rfl,
    (c4_shortest_segment egLib (Geometry.polygon []) egB).2.1 (Or.inl rfl)⟩⟩

/-! ### C2: minimality of the greedy selection

A functional model of connectivity: folding the edge list through
`collapseStep` produces a representative function whose fibres are exactly
the `Conn`-classes, which lets components be counted for arbitrary pair
lists. -/

/-- Merge the class of `e.2` into the class of `e.1` in the representative
function `f`. -/
def collapseStep (f : ℕ → ℕ) (e : ℕ × ℕ) : ℕ → ℕ :=
  if f e.1 = f e.2 then f else fun y => if f y = f e.2 then f e.1 else f y

/-- The representative function of an edge list. -/
def mrep (E : List (ℕ × ℕ)) : ℕ → ℕ := E.foldl collapseStep id

theorem mrep_append (E : List (ℕ × ℕ)) (e : ℕ × ℕ) :
    mrep (E ++ [e]) = collapseStep (mrep E) e := by
  unfold mrep
  rw [List.foldl_append]
  rfl

theorem collapseStep_idem {f : ℕ → ℕ} (hf : ∀ y, f (f y) = f y) (e : ℕ × ℕ) :
    ∀ y, collapseStep f e (collapseStep f e y) = collapseStep f e y := by
  intro y
  by_cases h : f e.1 = f e.2
  · simp only [collapseStep, if_pos h]
    exact hf y
  · simp only [collapseStep, if_neg h]
    by_cases hy : f y = f e.2
    · rw [if_pos hy, hf e.1, if_neg h]
    · rw [if_neg hy, hf y, if_neg hy]

theorem mrep_idem (E : List (ℕ × ℕ)) : ∀ y, mrep E (mrep E y) = mrep E y := by
  induction E using List.reverseRecOn with
  | nil => intro y; rfl
  | append_singleton E e ih =>
    rw [mrep_append]
    exact collapseStep_idem ih e

/-- Pure arithmetic core of the one-edge collapse: equality of the
redirected representatives, characterized. -/
theorem collapse_eq_iff2 {ra rb rx ry : ℕ} (hab : ra ≠ rb) :
    ((if rx = rb then ra else rx) = if ry = rb then ra else ry) ↔
      (rx = ry ∨ (rx = ra ∧ rb = ry) ∨ (rx = rb ∧ ra = ry)) := by
  by_cases h1 : rx = rb
  · by_cases h2 : ry = rb
    · rw [if_pos h1, if_pos h2]
      constructor
      · intro _
        exact Or.inl (h1.trans h2.symm)
      · intro _
        rfl
    · rw [if_pos h1, if_neg h2]
      constructor
      · intro h3
        exact Or.inr (Or.inr ⟨h1, h3⟩)
      · rintro (h3 | ⟨h3, h4⟩ | ⟨h3, h4⟩)
        · exact absurd (h3.symm.trans h1) h2
        · exact absurd h4.symm h2
        · exact h4
  · by_cases h2 : ry = rb
    · rw [if_neg h1, if_pos h2]
      constructor
      · intro h3
        exact Or.inr (Or.inl ⟨h3, h2.symm⟩)
      · rintro (h3 | ⟨h3, h4⟩ | ⟨h3, h4⟩)
        · exact absurd (h3.trans h2) h1
        · exact h3
        · exact absurd h3 h1
    · rw [if_neg h1, if_neg h2]
      constructor
      · intro h3
        exact Or.inl h3
      · rintro (h3 | ⟨h3, h4⟩ | ⟨h3, h4⟩)
        · exact h3
        · exact absurd h4.symm h2
        · exact absurd h3 h1

/-- Two indices have the same `mrep`-representative exactly when the edge
list connects them. -/
theorem mrep_eq_iff : ∀ (E : List (ℕ × ℕ)) (x y : ℕ),
    mrep E x = mrep E y ↔ Conn E x y := by
  intro E
  induction E using List.reverseRecOn with
  | nil =>
    intro x y
    constructor
    · intro h
      have hx : x = y := h
      subst hx
      exact Conn.refl x
    · intro h
      exact Conn.nil_eq h
  | append_singleton E e ih =>
    obtain ⟨a, b⟩ := e
    intro x y
    rw [conn_append_iff x y]
    by_cases h : mrep E a = mrep E b
    · have hstep : mrep (E ++ [(a, b)]) = mrep E := by
        rw [mrep_append]
        unfold collapseStep
        rw [if_pos h]
      rw [hstep, ih x y]
      constructor
      · intro hc
        exact Or.inl hc
      · rintro (hc | ⟨h1, h2⟩ | ⟨h1, h2⟩)
        · exact hc
        · exact (h1.trans ((ih a b).mp h)).trans h2
        · exact (h1.trans ((ih a b).mp h).symm).trans h2
    · have hstep : ∀ z, mrep (E ++ [(a, b)]) z =
          if mrep E z = mrep E b then mrep E a else mrep E z := by
        intro z
        rw [mrep_append]
        unfold collapseStep
        rw [if_neg h]
      rw [hstep x, hstep y, ← ih x y, ← ih x a, ← ih b y, ← ih x b, ← ih a y]
      exact collapse_eq_iff2 h

/-- The number of `Conn`-classes of an edge list among the indices below
`n`, computed through the representative function. -/
def cCount (n : ℕ) (E : List (ℕ × ℕ)) : ℕ := ((Finset.range n).image (mrep E)).card

theorem cCount_nil (n : ℕ) : cCount n [] = n := by
  unfold cCount
  have h : mrep [] = id := rfl
  rw [h, Finset.image_id, Finset.card_range]

theorem cCount_append_conn {n : ℕ} {E : List (ℕ × ℕ)} (e : ℕ × ℕ)
    (hc : Conn E e.1 e.2) : cCount n (E ++ [e]) = cCount n E := by
  have h : mrep E e.1 = mrep E e.2 := (mrep_eq_iff E e.1 e.2).mpr hc
  unfold cCount
  rw [mrep_append]
  unfold collapseStep
  rw [if_pos h]

theorem cCount_append_new {n : ℕ} {E : List (ℕ × ℕ)} (e : ℕ × ℕ)
    (hnc : ¬ Conn E e.1 e.2) (ha : e.1 < n) (hb : e.2 < n) :
    cCount n (E ++ [e]) + 1 = cCount n E := by
  have h : mrep E e.1 ≠ mrep E e.2 := fun hh => hnc ((mrep_eq_iff E e.1 e.2).mp hh)
  have hmemA : mrep E e.1 ∈ (Finset.range n).image (mrep E) :=
    Finset.mem_image.mpr ⟨e.1, Finset.mem_range.mpr ha, rfl⟩
  have hmemB : mrep E e.2 ∈ (Finset.range n).image (mrep E) :=
    Finset.mem_image.mpr ⟨e.2, Finset.mem_range.mpr hb, rfl⟩
  have hpos : 1 ≤ cCount n E := Finset.card_pos.mpr ⟨mrep E e.1, hmemA⟩
  unfold cCount
  rw [mrep_append]
  have himg : (Finset.range n).image (collapseStep (mrep E) e) =
      (Finset.range n).image
        (fun y => if mrep E y = mrep E e.2 then mrep E e.1 else mrep E y) := by
    apply Finset.image_congr
    intro y _
    simp only [collapseStep, if_neg h]
  rw [himg, collapse_card (mrep E) hmemA hmemB h]
  unfold cCount at hpos
  omega

theorem cCount_mono {E E2 : List (ℕ × ℕ)} (n : ℕ)
    (h : ∀ x y, Conn E x y → Conn E2 x y) : cCount n E2 ≤ cCount n E := by
  have hkey : ∀ x, mrep E2 (mrep E x) = mrep E2 x := by
    intro x
    apply (mrep_eq_iff E2 (mrep E x) x).mpr
    apply h
    apply (mrep_eq_iff E (mrep E x) x).mp
    exact mrep_idem E x
  unfold cCount
  have himg : (Finset.range n).image (mrep E2) =
      ((Finset.range n).image (mrep E)).image (mrep E2) := by
    rw [Finset.image_image]
    apply Finset.image_congr
    intro y _
    exact (hkey y).symm
  rw [himg]
  exact Finset.card_image_le

theorem cCount_ge (n : ℕ) : ∀ E : List (ℕ × ℕ),
    (∀ q, q ∈ E → q.1 < n ∧ q.2 < n) → n ≤ cCount n E + E.length := by
  intro E
  induction E using List.reverseRecOn with
  | nil =>
    intro _
    rw [cCount_nil]
    omega
  | append_singleton E e ih =>
    intro hmem
    have hE : ∀ q, q ∈ E → q.1 < n ∧ q.2 < n :=
      fun q hq => hmem q (List.mem_append_left _ hq)
    have he := hmem e (List.mem_append_right _ (List.mem_singleton.mpr rfl))
    have ih2 := ih hE
    have hlen : (E ++ [e]).length = E.length + 1 := by simp
    by_cases hc : Conn E e.1 e.2
    · rw [cCount_append_conn e hc]
      omega
    · have hnew := cCount_append_new e hc he.1 he.2
      omega

theorem spans_cCount_one {n : ℕ} (hn : 1 ≤ n) {E : List (ℕ × ℕ)}
    (h : ∀ x y, x < n → y < n → Conn E x y) : cCount n E = 1 := by
  unfold cCount
  apply Finset.card_eq_one.mpr
  refine ⟨mrep E 0, ?_⟩
  ext v
  simp only [Finset.mem_image, Finset.mem_range, Finset.mem_singleton]
  constructor
  · rintro ⟨y, hy, hv⟩
    rw [← hv]
    exact (mrep_eq_iff E y 0).mpr (h y 0 hy hn)
  · intro hv
    exact ⟨0, hn, hv.symm⟩

/-- A list of edges is a forest when no edge closes a cycle over the edges
before it — the prefix-order acyclicity the greedy scan maintains. -/
def IsForestList (F : List Edge) : Prop :=
  ∀ F1 e F2, F = F1 ++ e :: F2 → ¬ Conn (pairsE F1) e.a e.b

theorem pairsE_append (K L : List Edge) : pairsE (K ++ L) = pairsE K ++ pairsE L := by
  simp [pairsE]

theorem pairsE_length (K : List Edge) : (pairsE K).length = K.length := by
  simp [pairsE]

theorem IsForestList.take {F : List Edge} (h : IsForestList F) (m : ℕ) :
    IsForestList (F.take m) := by
  intro F1 e F2 hdec
  have hF : F = F1 ++ e :: (F2 ++ F.drop m) := by
    conv_lhs => rw [← List.take_append_drop m F]
    rw [hdec, List.append_assoc, List.cons_append]
  exact h F1 e (F2 ++ F.drop m) hF

theorem forest_cCount (n : ℕ) : ∀ F : List Edge, IsForestList F →
    (∀ e, e ∈ F → e.a < n ∧ e.b < n) →
    cCount n (pairsE F) + F.length = n := by
  intro F
  induction F using List.reverseRecOn with
  | nil =>
    intro _ _
    have h : pairsE [] = ([] : List (ℕ × ℕ)) := rfl
    rw [h, cCount_nil]
    simp
  | append_singleton F f ih =>
    intro hforest hmem
    have hforestF : IsForestList F := by
      intro F1 e F2 hdec
      exact hforest F1 e (F2 ++ [f]) (by rw [hdec]; simp)
    have hnc : ¬ Conn (pairsE F) f.a f.b := hforest F f [] rfl
    have hmemF : ∀ e, e ∈ F → e.a < n ∧ e.b < n :=
      fun e he => hmem e (List.mem_append_left _ he)
    have hf := hmem f (List.mem_append_right _ (List.mem_singleton.mpr rfl))
    have ih2 := ih hforestF hmemF
    rw [pairsE_append_single]
    have hnew := cCount_append_new (f.a, f.b) hnc hf.1 hf.2
    have hlen : (F ++ [f]).length = F.length + 1 := by simp
    omega

/-- Removing an edge whose endpoints the remaining edges already connect
does not change connectivity. -/
theorem conn_remove_redundant {E1 E2 : List (ℕ × ℕ)} {a b : ℕ}
    (hc : Conn (E1 ++ E2) a b) :
    ∀ x y, Conn (E1 ++ (a, b) :: E2) x y → Conn (E1 ++ E2) x y := by
  intro x y h
  induction h with
  | @rel u v hmem =>
    rcases List.mem_append.mp hmem with h1 | h1
    · exact Conn.rel (List.mem_append_left _ h1)
    · rcases List.mem_cons.mp h1 with h2 | h2
      · obtain ⟨hu, hv⟩ := Prod.mk.injEq .. ▸ h2
        subst hu
        subst hv
        exact hc
      · exact Conn.rel (List.mem_append_right _ h2)
  | refl x => exact Conn.refl x
  | symm _ ih => exact ih.symm
  | trans _ _ ih1 ih2 => exact ih1.trans ih2

/-- A spanning edge set of size `n - 1` over `n ≥ 2` indices is a forest:
no edge of it closes a cycle over the edges listed before it. -/
theorem spanning_tree_forest {n : ℕ} (hn : 2 ≤ n) {T : List Edge}
    (hTmem : ∀ e, e ∈ T → e.a < n ∧ e.b < n)
    (hTspan : ∀ x y, x < n → y < n → Conn (pairsE T) x y)
    (hTlen : T.length = n - 1) : IsForestList T := by
  intro T1 f T2 hdec hconn
  have hpairs : pairsE T = pairsE T1 ++ (f.a, f.b) :: pairsE T2 := by
    rw [hdec, pairsE_append]
    simp [pairsE]
  have hconn' : Conn (pairsE T1 ++ pairsE T2) f.a f.b :=
    hconn.mono (fun q hq => List.mem_append_left _ hq)
  have hsub : ∀ x y, Conn (pairsE T) x y → Conn (pairsE T1 ++ pairsE T2) x y := by
    rw [hpairs]
    exact conn_remove_redundant hconn'
  have hspan' : ∀ x y, x < n → y < n → Conn (pairsE T1 ++ pairsE T2) x y :=
    fun x y hx hy => hsub x y (hTspan x y hx hy)
  have h1 : cCount n (pairsE T1 ++ pairsE T2) = 1 := spans_cCount_one (by omega) hspan'
  have hmem' : ∀ q, q ∈ pairsE T1 ++ pairsE T2 → q.1 < n ∧ q.2 < n := by
    intro q hq
    have hq2 : q ∈ pairsE T := by
      rw [hpairs]
      rcases List.mem_append.mp hq with h | h
      · exact List.mem_append_left _ h
      · exact List.mem_append_right _ (List.mem_cons_of_mem _ h)
    simp only [pairsE, List.mem_map] at hq2
    obtain ⟨ed, hed, hq3⟩ := hq2
    obtain ⟨hA, hB⟩ := hTmem ed hed
    rw [← hq3]
    exact ⟨hA, hB⟩
  have h2 := cCount_ge n (pairsE T1 ++ pairsE T2) hmem'
  have hlen2 : (pairsE T1 ++ pairsE T2).length = n - 2 := by
    have hlT := congrArg List.length hdec
    simp only [List.length_append, List.length_cons] at hlT
    rw [List.length_append, pairsE_length, pairsE_length]
    omega
  omega

/-- The exchange property: a strictly larger forest always contains an edge
that does not close a cycle over a smaller forest. -/
theorem forest_exchange {n : ℕ} {F1 F2 : List Edge}
    (h1 : IsForestList F1) (h2 : IsForestList F2)
    (hm1 : ∀ e, e ∈ F1 → e.a < n ∧ e.b < n)
    (hm2 : ∀ e, e ∈ F2 → e.a < n ∧ e.b < n)
    (hlen : F1.length < F2.length) :
    ∃ f, f ∈ F2 ∧ ¬ Conn (pairsE F1) f.a f.b := by
  by_contra hcon
  push_neg at hcon
  have hsub : ∀ x y, Conn (pairsE F2) x y → Conn (pairsE F1) x y := by
    intro x y h
    induction h with
    | @rel u v hmem =>
      simp only [pairsE, List.mem_map] at hmem
      obtain ⟨f, hf, hfe⟩ := hmem
      obtain ⟨hu, hv⟩ := Prod.mk.injEq .. ▸ hfe
      subst hu
      subst hv
      exact hcon f hf
    | refl x => exact Conn.refl x
    | symm _ ih => exact ih.symm
    | trans _ _ ih1 ih2 => exact ih1.trans ih2
  have hc1 := forest_cCount n F1 h1 hm1
  have hc2 := forest_cCount n F2 h2 hm2
  have hmono := cCount_mono n hsub
  omega

instance : Inhabited Edge := ⟨⟨0, 0, 0, []⟩⟩

/-- In a list sorted by distance, every element of `take (i + 1)` weighs at
most the element at position `i`. -/
theorem sorted_take_le {l : List Edge}
    (hs : List.Pairwise (fun x y : Edge => x.distance ≤ y.distance) l)
    {x : Edge} {i : ℕ} (hx : x ∈ l.take (i + 1)) (hi : i < l.length) :
    x.distance ≤ (l.getD i default).distance := by
  rw [List.getD_eq_getElem l default hi]
  obtain ⟨j, hj, hjx⟩ := List.mem_iff_getElem.mp hx
  rw [List.length_take] at hj
  have hj2 : j < l.length := by omega
  have hjx2 : l[j] = x := by
    rw [← hjx, List.getElem_take]
  rcases Nat.lt_or_ge j i with hlt | hge
  · have hpw := List.pairwise_iff_getElem.mp hs j i hj2 hi hlt
    rw [hjx2] at hpw
    exact hpw
  · have hji : j = i := by omega
    subst hji
    rw [← hjx2]

/-- In a list sorted by distance, an element strictly lighter than the
element at position `i` lies in `take i`. -/
theorem lt_sorted_mem_take {l : List Edge}
    (hs : List.Pairwise (fun x y : Edge => x.distance ≤ y.distance) l)
    {x : Edge} {i : ℕ} (hx : x ∈ l) (hi : i < l.length)
    (hlt : x.distance < (l.getD i default).distance) : x ∈ l.take i := by
  obtain ⟨j, hj, hjx⟩ := List.mem_iff_getElem.mp hx
  rcases Nat.lt_or_ge j i with h | h
  · apply List.mem_iff_getElem.mpr
    refine ⟨j, ?_, ?_⟩
    · rw [List.length_take]
      omega
    · rw [List.getElem_take]
      exact hjx
  · exfalso
    have hle : (l.getD i default).distance ≤ l[j].distance := by
      rw [List.getD_eq_getElem l default hi]
      rcases Nat.lt_or_ge i j with h2 | h2
      · exact List.pairwise_iff_getElem.mp hs i j hi hj h2
      · have hij : i = j := by omega
        subst hij
        exact le_refl _
    rw [hjx] at hle
    exact absurd hlt (not_lt.mpr hle)

/-- Position-wise comparison of rational lists carries over to their sums. -/
theorem sum_le_of_getD : ∀ {l1 l2 : List ℚ}, l1.length = l2.length →
    (∀ i, i < l1.length → l1.getD i 0 ≤ l2.getD i 0) → l1.sum ≤ l2.sum := by
  intro l1
  induction l1 with
  | nil =>
    intro l2 hlen _
    have h2 : l2 = [] := List.eq_nil_of_length_eq_zero hlen.symm
    rw [h2]
  | cons x xs ih =>
    intro l2 hlen h
    cases l2 with
    | nil => simp at hlen
    | cons y ys =>
      have h0 : x ≤ y := by
        have hh := h 0 (by simp)
        simpa using hh
      have hrest : xs.sum ≤ ys.sum := by
        apply ih
        · simpa using hlen
        · intro i hi
          have hh := h (i + 1) (by simpa using Nat.succ_lt_succ hi)
          simpa using hh
      simp only [List.sum_cons]
      exact add_le_add h0 hrest

theorem getD_map_dist (K : List Edge) (i : ℕ) :
    (K.map (fun e => e.distance)).getD i 0 = (K.getD i default).distance := by
  rcases Nat.lt_or_ge i K.length with h | h
  · rw [List.getD_eq_getElem _ _ (by simpa using h), List.getD_eq_getElem K default h]
    simp
  · rw [List.getD_eq_default _ _ (by simpa using h), List.getD_eq_default K default h]
    rfl

/-- Pointwise minimality of the greedy selection: against any spanning
sub-collection `T` of the sorted edge list with `n - 1` edges, the `i`-th
accepted edge weighs at most the `i`-th edge of `T`. -/
theorem kruskal_pointwise {n : ℕ} {sorted K T : List Edge} (hn : 2 ≤ n)
    (hsorted : List.Pairwise (fun x y : Edge => x.distance ≤ y.distance) sorted)
    (hnodup : sorted.Nodup)
    (hmemS : ∀ e, e ∈ sorted → e.a < n ∧ e.b < n)
    (hG : Greedy n sorted [] K)
    (hKlen : K.length = n - 1)
    (hKspan : ∀ x y, x < n → y < n → Conn (pairsE K) x y)
    (hT : T.Sublist sorted)
    (hTlen : T.length = n - 1)
    (hTspan : ∀ x y, x < n → y < n → Conn (pairsE T) x y) :
    ∀ i, i < n - 1 → (K.getD i default).distance ≤ (T.getD i default).distance := by
  have hKsub : K.Sublist sorted := by
    obtain ⟨L, hK2, hsub⟩ := hG.append_sublist
    have hKL : K = L := by simpa using hK2
    rw [hKL]
    exact hsub
  have hKmem : ∀ e, e ∈ K → e.a < n ∧ e.b < n := fun e he => hmemS e (hKsub.subset he)
  have hTmem : ∀ e, e ∈ T → e.a < n ∧ e.b < n := fun e he => hmemS e (hT.subset he)
  have hKsorted : List.Pairwise (fun x y : Edge => x.distance ≤ y.distance) K :=
    hsorted.sublist hKsub
  have hTsorted : List.Pairwise (fun x y : Edge => x.distance ≤ y.distance) T :=
    hsorted.sublist hT
  have hKforest : IsForestList K := by
    intro K1 f K3 hdec
    exact hG.forest K1 f K3 hdec (by simp)
  have hTforest : IsForestList T := spanning_tree_forest hn hTmem hTspan hTlen
  intro i hi
  by_contra hcon
  push_neg at hcon
  have hiK : i < K.length := by omega
  have hiT : i < T.length := by omega
  have hF1len : (K.take i).length = i := by
    rw [List.length_take]
    omega
  have hF2len : (T.take (i + 1)).length = i + 1 := by
    rw [List.length_take]
    omega
  obtain ⟨f, hfF2, hfnc⟩ := forest_exchange (hKforest.take i) (hTforest.take (i + 1))
    (fun e he => hKmem e (List.mem_of_mem_take he))
    (fun e he => hTmem e (List.mem_of_mem_take he))
    (by rw [hF1len, hF2len]; omega)
  have hfw : f.distance ≤ (T.getD i default).distance := sorted_take_le hTsorted hfF2 hiT
  have hfwK : f.distance < (K.getD i default).distance := lt_of_le_of_lt hfw hcon
  by_cases hfK : f ∈ K
  · have hmemtake : f ∈ K.take i := lt_sorted_mem_take hKsorted hfK hiK hfwK
    refine hfnc (Conn.rel ?_)
    simp only [pairsE, List.mem_map]
    exact ⟨f, hmemtake, rfl⟩
  · have hfS : f ∈ sorted := hT.subset (List.mem_of_mem_take hfF2)
    obtain ⟨pre, post, hdecS⟩ := List.append_of_mem hfS
    have hrej := hG.reject_conn pre f post hdecS hfK (by simpa using hnodup)
      hKspan (hmemS f hfS).1 (hmemS f hfS).2
    have hsub2 : ∀ k, k ∈ K.filter (fun k => k ∈ ([] : List Edge) ++ pre) →
        k ∈ K.take i := by
      intro k hk
      simp only [List.mem_filter, List.nil_append, decide_eq_true_eq] at hk
      obtain ⟨hkK, hkpre⟩ := hk
      have hkw : k.distance ≤ f.distance := by
        have hp := hsorted
        rw [hdecS] at hp
        exact (List.pairwise_append.mp hp).2.2 k hkpre f (List.mem_cons_self f post)
      have hkwK : k.distance < (K.getD i default).distance := lt_of_le_of_lt hkw hfwK
      exact lt_sorted_mem_take hKsorted hkK hiK hkwK
    exact hfnc (hrej.mono (pairsE_mono hsub2))

/-- Sum form of pointwise minimality: the greedy selection's total distance
is at most that of any spanning sub-collection of the sorted list with
`n - 1` edges. -/
theorem kruskal_sum_le {n : ℕ} {sorted K T : List Edge} (hn : 2 ≤ n)
    (hsorted : List.Pairwise (fun x y : Edge => x.distance ≤ y.distance) sorted)
    (hnodup : sorted.Nodup)
    (hmemS : ∀ e, e ∈ sorted → e.a < n ∧ e.b < n)
    (hG : Greedy n sorted [] K)
    (hKlen : K.length = n - 1)
    (hKspan : ∀ x y, x < n → y < n → Conn (pairsE K) x y)
    (hT : T.Sublist sorted)
    (hTlen : T.length = n - 1)
    (hTspan : ∀ x y, x < n → y < n → Conn (pairsE T) x y) :
    (K.map (fun e => e.distance)).sum ≤ (T.map (fun e => e.distance)).sum := by
  apply sum_le_of_getD
  · simp [hKlen, hTlen]
  · intro i hi
    have hi2 : i < n - 1 := by
      rw [List.length_map, hKlen] at hi
      exact hi
    rw [getD_map_dist, getD_map_dist]
    exact kruskal_pointwise hn hsorted hnodup hmemS hG hKlen hKspan hT hTlen hTspan i hi2

/-- C2: for every input of `n ≥ 2` shapes, the total distance of the edge
set selected by the MST solver is less than or equal to the total distance
of every other spanning tree formed from the same computed edge list —
whenever the merge succeeds, any sub-collection of the debug pair list with
`n - 1` edges whose pairs connect all `n` indices has total distance at
least the total length of the accepted MST segments. -/
theorem c2_mst_minimality (G : GeoLib) (features : List Geometry) (cf : Option ℚ)
    (hn : 2 ≤ features.length) :
    ∀ out dbg, mergePolygonsWithShortestCorridors G features cf = Except.ok (out, dbg) →
      ∀ T, T.Sublist dbg.pairs → T.length = features.length - 1 →
        (∀ x y, x < features.length → y < features.length → Conn (pairsE T) x y) →
        (dbg.mstEdges.map (fun m => pathLength G m.seg)).sum ≤
          (T.map (fun e => e.distance)).sum := by
  intro out dbg hmerge T hTsub hTlen hTspan
  have hdbg := (merge_ok_inv (by omega) hmerge).1
  have hpairs : dbg.pairs = sortEdges (buildEdges G features) := by rw [hdbg]
  have hmst : dbg.mstEdges = (kruskalLoop features.length
      (sortEdges (buildEdges G features)) (UnionFind.init features.length) []).2 := by
    rw [hdbg]
  have hmemS : ∀ e, e ∈ sortEdges (buildEdges G features) →
      e.a < features.length ∧ e.b < features.length := by
    intro e he
    obtain ⟨h1, h2, _, _⟩ := buildEdges_mem.mp (((sortEdges_perm _).mem_iff).mp he)
    exact ⟨by omega, h2⟩
  have hcomp : ∀ i j, i < j → j < features.length →
      ∃ e, e ∈ sortEdges (buildEdges G features) ∧ e.a = i ∧ e.b = j := by
    intro i j hij hj
    refine ⟨⟨i, j,
      pathLength G (shortestSegmentBetween G (features.getD i default)
        (features.getD j default)),
      shortestSegmentBetween G (features.getD i default) (features.getD j default)⟩,
      ?_, rfl, rfl⟩
    rw [(sortEdges_perm _).mem_iff]
    exact buildEdges_mem.mpr ⟨hij, hj, rfl, rfl⟩
  obtain ⟨K2, hGr, hval, _, hKlen, hKspan⟩ := kruskal_final hn hmemS hcomp
  have hnodup : (sortEdges (buildEdges G features)).Nodup :=
    ((sortEdges_perm _).nodup_iff).mpr (buildEdges_nodup G features)
  have hsorted := sortEdges_sorted (buildEdges G features)
  rw [hpairs] at hTsub
  have hsum := kruskal_sum_le hn hsorted hnodup hmemS hGr hKlen hKspan hTsub hTlen hTspan
  have hW : dbg.mstEdges.map (fun m => pathLength G m.seg) =
      K2.map (fun e => e.distance) := by
    rw [hmst, hval, List.map_map]
    apply List.map_congr_left
    intro e he
    have heS : e ∈ sortEdges (buildEdges G features) := by
      obtain ⟨L, hK2eq, hsub⟩ := hGr.append_sublist
      have hKeq : K2 = L := by simpa using hK2eq
      exact hsub.subset (hKeq ▸ he)
    obtain ⟨_, _, _, h4⟩ := buildEdges_mem.mp (((sortEdges_perm _).mem_iff).mp heS)
    show pathLength G (toMst e).seg = e.distance
    exact h4.symm
  rw [hW]
  exact hsum

/-- Witness for C2 at a concrete two-shape input. -/
theorem c2_witness :
    2 ≤ ([egA, egB] : List Geometry).length ∧
    (∀ out dbg, mergePolygonsWithShortestCorridors egLib [egA, egB] none =
        Except.ok (out, dbg) →
      ∀ T, T.Sublist dbg.pairs → T.length = ([egA, egB] : List Geometry).length - 1 →
        (∀ x y, x < ([egA, egB] : List Geometry).length →
          y < ([egA, egB] : List Geometry).length → Conn (pairsE T) x y) →
        (dbg.mstEdges.map (fun m => pathLength egLib m.seg)).sum ≤
          (T.map (fun e => e.distance)).sum) :=
  ⟨by decide, c2_mst_minimality egLib [egA, egB] none (by decide)⟩
